import Mathlib

/- Verification development for the cluster-id bookkeeping of
   ClusterPlanRep (src/code/3rdParty/ogdf/src/ogdf/cluster/ClusterPlanRep.cpp).

   Shallow embedding conventions:
   * Nodes, edges, adjacency entries and clusters are identified by natural
     numbers.  Clusters are compared by their unique index (the C++ code
     compares cluster pointers; indices are unique, see the constructor
     comment at ClusterPlanRep.cpp:65-67).
   * The cluster tree is given by a parent function `par : Nat → Option Nat`
     (`none` for the root / a missing parent pointer).
   * Node/edge attribute arrays (m_nodeClusterID, m_edgeClusterID, the
     boundary-edge flag) become total functions with functional update;
     the unset sentinel is -1 as in the C++ code.
   * OGDF_ASSERT is modelled as a distinct fatal outcome `CPRErr.assertFailed`,
     OGDF_THROW(AlgorithmFailureException) as `CPRErr.algFailure`; a null
     parent-pointer dereference is `CPRErr.nullDeref`.  This follows the
     error-handling design of the code (assertions versus the thrown
     algorithm-failure signal are distinguishable).
-/

/-- Fatal outcomes of the ClusterPlanRep operations: a failed OGDF_ASSERT,
the thrown AlgorithmFailureException, and a null parent dereference. -/
inductive CPRErr where
  | assertFailed
  | algFailure
  | nullDeref
  deriving DecidableEq

/-- An edge record of the planarized copy: source and target node. -/
structure EdgeRec where
  src : Nat
  tgt : Nat
  deriving DecidableEq

/-- State of the ClusterPlanRep relevant to the verified operations:
the copy graph (nodes, edges as an association list from edge id to record,
fresh-id counters), the per-node and per-edge cluster-id arrays, the
boundary-edge flag, and the outer-face reference m_rootAdj (an adjacency
entry, i.e. an edge id plus a source/target side). -/
structure BState where
  nextNode : Nat
  nextEdge : Nat
  nodes : List Nat
  edges : List (Nat × EdgeRec)
  nodeClusterID : Nat → Int
  edgeClusterID : Nat → Int
  isClusterBoundary : Nat → Bool
  rootAdj : Option (Nat × Bool)

/-- Functional update of an Int-valued attribute array. -/
def updI (f : Nat → Int) (k : Nat) (v : Int) : Nat → Int :=
  fun x => if x = k then v else f x

/-- Functional update of a Nat-valued attribute array. -/
def updN (f : Nat → Nat) (k v : Nat) : Nat → Nat :=
  fun x => if x = k then v else f x

/-- Functional update of an Option-valued attribute array. -/
def updO (f : Nat → Option Nat) (k : Nat) (v : Option Nat) : Nat → Option Nat :=
  fun x => if x = k then v else f x

/-- Functional update of a Bool-valued attribute array. -/
def updB (f : Nat → Bool) (k : Nat) (v : Bool) : Nat → Bool :=
  fun x => if x = k then v else f x

/-- Lookup of an edge record by edge id in the association list. -/
def lookupEdge : List (Nat × EdgeRec) → Nat → Option EdgeRec
  | [], _ => none
  | p :: ps, e => if p.1 = e then some p.2 else lookupEdge ps e

/-- Edge record by id, with a junk default (the code never looks up a dead id). -/
def getEdge (bs : BState) (e : Nat) : EdgeRec :=
  (lookupEdge bs.edges e).getD ⟨0, 0⟩

/-- Redirect the target of edge `e` to node `w` (part of the split primitive). -/
def setTgt : List (Nat × EdgeRec) → Nat → Nat → List (Nat × EdgeRec)
  | [], _, _ => []
  | p :: ps, e, w => (if p.1 = e then (p.1, EdgeRec.mk p.2.src w) else p) :: setTgt ps e w

/-- Modelled from the spec: the planarized-representation collaborator's
edge-split primitive (PlanRep/Graph::split, outside src/).  Edge e = (u,v)
becomes (u,w) for a fresh node w and a new edge (w,v) is created; the new
node and the new edge are returned.  Attribute arrays are untouched (fresh
ids carry whatever the total functions already held there, i.e. the array
default). -/
def split (bs : BState) (e : Nat) : BState × Nat × Nat :=
  let r := getEdge bs e
  let w := bs.nextNode
  let ne := bs.nextEdge
  (⟨w + 1, ne + 1, bs.nodes ++ [w], setTgt bs.edges e w ++ [(ne, ⟨w, r.tgt⟩)],
    bs.nodeClusterID, bs.edgeClusterID, bs.isClusterBoundary, bs.rootAdj⟩, w, ne)

/- ------------------------------------------------------------------ -/
/- initCC (ClusterPlanRep.cpp:70-94)                                   -/
/- ------------------------------------------------------------------ -/

/-- A copy edge of the current connected component: its id in the copy and
its two endpoint copy nodes. -/
structure CEdge where
  id : Nat
  src : Nat
  tgt : Nat
  deriving DecidableEq

/-- The data initCC works from: the original nodes of the current connected
component, the cluster index of each original node
(m_pClusterGraph->clusterOf(v)->index()), the copy map, and the copy edges. -/
structure OrigGraph where
  origNodes : List Nat
  clusterOf : Nat → Nat
  copy : Nat → Nat
  copyEdges : List CEdge

/-- The two cluster-id arrays initCC (re)initializes. -/
structure IdState where
  nodeClusterID : Nat → Int
  edgeClusterID : Nat → Int

/-- ClusterPlanRep::initCC (lines 70-94).  The inherited PlanRep::initCC is
modelled from the spec: it is outside src/ and rebuilds the copy of the
current component from scratch, so both cluster-id arrays restart at the
array default -1 (`resetForComponent` of the spec).  Then, exactly as in the
code, every original node's copy receives its original's cluster index, and
every copy edge whose two endpoints carry the same node cluster-id receives
that value as its edge cluster-id. -/
def initCC (g : OrigGraph) (_st : IdState) : IdState :=
  let base : IdState := ⟨fun _ => -1, fun _ => -1⟩
  let nID := g.origNodes.foldl
    (fun f v => updI f (g.copy v) (Int.ofNat (g.clusterOf v))) base.nodeClusterID
  let eID := g.copyEdges.foldl
    (fun f e => if nID e.src = nID e.tgt then updI f e.id (nID e.src) else f)
    base.edgeClusterID
  ⟨nID, eID⟩

/- ------------------------------------------------------------------ -/
/- expand / expandLowDegreeVertices (ClusterPlanRep.cpp:355-381)       -/
/- ------------------------------------------------------------------ -/

/-- One iteration of the update loop shared by ClusterPlanRep::expand and
ClusterPlanRep::expandLowDegreeVertices: for a node v with
expandedNode(v) != nullptr, OGDF_ASSERT that the expanded vertex's
cluster-id is set and copy it onto v. -/
def expandStep (expandedNode : Nat → Option Nat) (f : Nat → Int) (v : Nat) :
    Except CPRErr (Nat → Int) :=
  match expandedNode v with
  | none => .ok f
  | some w => if f w = -1 then .error .assertFailed else .ok (updI f v (f w))

/-- ClusterPlanRep::expand (lines 355-367): the cluster-info update loop run
after the inherited PlanRep::expand (outside src/, which builds the gadget
and the expandedNode map that are taken here as inputs). -/
def expand (nodesL : List Nat) (expandedNode : Nat → Option Nat) (f : Nat → Int) :
    Except CPRErr (Nat → Int) :=
  nodesL.foldlM (expandStep expandedNode) f

/-- ClusterPlanRep::expandLowDegreeVertices (lines 369-381): the identical
cluster-info update loop run after the inherited
PlanRep::expandLowDegreeVertices. -/
def expandLowDegreeVertices (nodesL : List Nat) (expandedNode : Nat → Option Nat)
    (f : Nat → Int) : Except CPRErr (Nat → Int) :=
  nodesL.foldlM (expandStep expandedNode) f

/- ------------------------------------------------------------------ -/
/- insertEdgePathEmbedded crossing resolution (ClusterPlanRep.cpp:101-186) -/
/- ------------------------------------------------------------------ -/

/-- Modelled from the spec: ClusterPlanRep::clusterOfDummy (declared in the
header, outside src/) returns m_clusterOfIndex[m_nodeClusterID[v]]; calling
it with the unset sentinel is a precondition violation.  Clusters being
their indices here, the lookup succeeds exactly on a set (non-negative) id. -/
def clusterOfDummy (id : Int) : Option Nat :=
  if id < 0 then none else some id.toNat

/-- Per-crossing data the inherited PlanRep::insertEdgePathEmbedded leaves in
the chain of eOrig: the chain edge's target node (`dummy`), its degree, the
two endpoints v1, v2 of the crossed edge (adjC1/adjC2 twin nodes), and the
cluster indices of their originals (`none` when vi is a dummy, i.e.
original(vi) == nullptr). -/
structure ChainEdge where
  target : Nat
  deg : Nat
  v1 : Nat
  v2 : Nat
  orC1 : Option Nat
  orC2 : Option Nat
  deriving DecidableEq

/-- Write the node cluster-id of one node. -/
def writeNodeId (bs : BState) (v : Nat) (x : Int) : BState :=
  { bs with nodeClusterID := updI bs.nodeClusterID v x }

/-- Lines 149-165: the crossed edge is flanked by one original (cluster orC)
and one dummy whose node cluster-id is dId.  The OGDF_ASSERT admits
orC == dC, orC == dC->parent() or orC->parent() == dC; the following chain
assigns orC in the first two cases and otherwise throws
AlgorithmFailureException. -/
def resolveOneOriginal (par : Nat → Option Nat) (bs : BState) (dummy : Nat)
    (orC : Nat) (dId : Int) : Except CPRErr BState :=
  match clusterOfDummy dId with
  | none => .error .assertFailed
  | some dC =>
    if orC = dC ∨ some orC = par dC ∨ par orC = some dC then
      if orC = dC then .ok (writeNodeId bs dummy (Int.ofNat orC))
      else if some orC = par dC then .ok (writeNodeId bs dummy (Int.ofNat orC))
      else .error .algFailure
    else .error .assertFailed

/-- Lines 166-182: neither flanking node is an original; c1, c2 are the
clusters of the two dummies.  The OGDF_ASSERT admits c1 == c2,
c1 == c2->parent(), c1->parent() == c2 or c1->parent() == c2->parent();
the chain assigns c1, c1, c2 and otherwise c1->parent() (a null c1->parent()
would be dereferenced there). -/
def resolveNoOriginal (par : Nat → Option Nat) (bs : BState) (dummy : Nat)
    (c1 c2 : Nat) : Except CPRErr BState :=
  if c1 = c2 ∨ some c1 = par c2 ∨ par c1 = some c2 ∨ par c1 = par c2 then
    if c1 = c2 then .ok (writeNodeId bs dummy (Int.ofNat c1))
    else if some c1 = par c2 then .ok (writeNodeId bs dummy (Int.ofNat c1))
    else if some c2 = par c1 then .ok (writeNodeId bs dummy (Int.ofNat c2))
    else
      match par c1 with
      | some p => .ok (writeNodeId bs dummy (Int.ofNat p))
      | none => .error .nullDeref
  else .error .assertFailed

/-- One iteration of the crossing-resolution loop of
ClusterPlanRep::insertEdgePathEmbedded (lines 110-184): the chain edge whose
target is the copy of eOrig's target is skipped; otherwise the degree-4 and
non-degeneracy assertions run, and the cluster-id of the new crossing dummy
is resolved from the flanking nodes of the crossed edge. -/
def resolveCrossingStep (par : Nat → Option Nat) (copyTgt : Nat) (bs : BState)
    (ce : ChainEdge) : Except CPRErr BState :=
  if ce.target = copyTgt then .ok bs
  else if ce.deg ≠ 4 then .error .assertFailed
  else if ce.v1 = ce.target ∨ ce.v2 = ce.target then .error .assertFailed
  else
    match ce.orC1, ce.orC2 with
    | some a, some b =>
      if a ≠ b then .error .assertFailed
      else if bs.nodeClusterID ce.v1 = -1 then .error .assertFailed
      else .ok (writeNodeId bs ce.target (bs.nodeClusterID ce.v1))
    | some a, none => resolveOneOriginal par bs ce.target a (bs.nodeClusterID ce.v2)
    | none, some b => resolveOneOriginal par bs ce.target b (bs.nodeClusterID ce.v1)
    | none, none =>
      match clusterOfDummy (bs.nodeClusterID ce.v1),
            clusterOfDummy (bs.nodeClusterID ce.v2) with
      | some c1, some c2 => resolveNoOriginal par bs ce.target c1 c2
      | _, _ => .error .assertFailed

/-- The whole crossing-resolution pass over chain(eOrig) (the for-loop of
lines 110-184).  A fatal outcome aborts the loop; writes made by earlier
iterations persist, as they do across a C++ throw. -/
def resolvePass (par : Nat → Option Nat) (copyTgt : Nat) :
    BState → List ChainEdge → BState × Option CPRErr
  | bs, [] => (bs, none)
  | bs, ce :: rest =>
    match resolveCrossingStep par copyTgt bs ce with
    | .ok bs2 => resolvePass par copyTgt bs2 rest
    | .error g => (bs, some g)

/-- Outcome projection: the error of a resolution step, if any. -/
def resErr (r : Except CPRErr BState) : Option CPRErr :=
  match r with
  | .ok _ => none
  | .error g => some g

/-- Outcome projection: the node cluster-id of `v` in a successful result. -/
def resNodeId (r : Except CPRErr BState) (v : Nat) : Option Int :=
  match r with
  | .ok s => some (s.nodeClusterID v)
  | .error _ => none

/- ------------------------------------------------------------------ -/
/- insertBoundary (ClusterPlanRep.cpp:238-351) and the cluster pass    -/
/- ------------------------------------------------------------------ -/

/-- A cluster-adjacent adjacency entry, as listed by
ClusterGraph::adjEntries(C, outAdj): its identity (the key of the
per-adjEntry arrays outEdge and currentEdge), the identity of its twin,
whether the entry is the source side of its edge (i.e. the edge starts at
the entry's node, which lies inside the cluster), and the id of the copy of
its edge (copy((*it)->theEdge())). -/
structure AdjE where
  key : Nat
  twinKey : Nat
  isSource : Bool
  copyEdge : Nat
  deriving DecidableEq

/-- Direction encoding of the outEdge array: 1 outgoing, 0 ingoing, 2 undefined
(lines 194-196). -/
def dirOf (a : AdjE) : Nat := if a.isSource then 1 else 0

/-- Lines 269-279 (currentEdge part): for a leaf cluster, an unset
currentEdge entry is initialized to the copy of the entry's edge. -/
def curAfterLeaf (isLeaf : Bool) (cur : Nat → Option Nat) (a : AdjE) :
    Nat → Option Nat :=
  if isLeaf then
    (if cur a.key = none then updO cur a.key (some a.copyEdge) else cur)
  else cur

/-- Lines 269-283 (outEdge part): for a leaf cluster the direction is set
from isSource(); for any cluster an undefined (2) direction is then set the
same way (the nonleaf workaround). -/
def outAfterStep (isLeaf : Bool) (out : Nat → Nat) (a : AdjE) : Nat → Nat :=
  let o0 := if isLeaf then updN out a.key (dirOf a) else out
  if o0 a.key = 2 then updN o0 a.key (dirOf a) else o0

/-- Lines 269-289: the currentEdge entry after the leaf initialization and
the may-already-be-splitted fallback; afterwards it is always set. -/
def curResolved (isLeaf : Bool) (cur : Nat → Option Nat) (a : AdjE) :
    Nat → Option Nat :=
  let c0 := curAfterLeaf isLeaf cur a
  if c0 a.key = none then updO c0 a.key (some a.copyEdge) else c0

/-- The edge the loop body will split for entry `a`: the currentEdge entry
if set, else the copy of the entry's edge (lines 269-292 net effect). -/
def initSplit (cur : Nat → Option Nat) (a : AdjE) : Nat :=
  (cur a.key).getD a.copyEdge

/-- State of the while-loop of insertBoundary (lines 266-329): the graph
state, the two per-adjEntry arrays, and the two local adjEntry lists. -/
structure LoopState where
  bs : BState
  outE : Nat → Nat
  curE : Nat → Option Nat
  sourceEntries : List (Nat × Bool)
  targetEntries : List (Nat × Bool)

/-- One iteration of the while-loop of insertBoundary (lines 266-329) for
adjacency entry `a`: resolve direction and current edge, split the current
edge, store the new node's adjacency entries on the source/target lists
according to the direction, set the split node's cluster-id, rebind
currentEdge (and its twin) for outgoing entries, and remember the outer-face
reference on the last entry of a cluster whose parent is the root.
An adjacency entry (e, true) denotes e->adjSource(), (e, false) denotes
e->adjTarget(). -/
def insBStep (Cidx : Nat) (isLeaf piR isLast : Bool) (s : LoopState) (a : AdjE) :
    LoopState :=
  let cur1 := curResolved isLeaf s.curE a
  let out1 := outAfterStep isLeaf s.outE a
  let splitE := (cur1 a.key).getD 0
  let sp := split s.bs splitE
  if out1 a.key = 1 then
    ⟨{ sp.1 with
        nodeClusterID := updI sp.1.nodeClusterID sp.2.1 (Int.ofNat Cidx),
        rootAdj := if piR ∧ isLast then some (sp.2.2, true) else sp.1.rootAdj },
      out1, updO (updO cur1 a.key (some sp.2.2)) a.twinKey (some sp.2.2),
      s.sourceEntries ++ [(sp.2.2, true)], s.targetEntries ++ [(splitE, false)]⟩
  else
    ⟨{ sp.1 with
        nodeClusterID := updI sp.1.nodeClusterID sp.2.1 (Int.ofNat Cidx),
        rootAdj := if piR ∧ isLast then some (splitE, true) else sp.1.rootAdj },
      out1, cur1,
      s.sourceEntries ++ [(splitE, false)], s.targetEntries ++ [(sp.2.2, true)]⟩

/-- The while-loop of insertBoundary over the outgoing adjacency list
(lines 266-329); the last entry is recognized by it.succ() being invalid. -/
def insBLoop (Cidx : Nat) (isLeaf piR : Bool) : LoopState → List AdjE → LoopState
  | s, [] => s
  | s, a :: rest => insBLoop Cidx isLeaf piR (insBStep Cidx isLeaf piR rest.isEmpty s a) rest

/-- The node an adjacency entry lives at: the source of its edge for an
adjSource entry, the target for an adjTarget entry. -/
def nodeOfAdj (bs : BState) (r : Nat × Bool) : Nat :=
  if r.2 then (getEdge bs r.1).src else (getEdge bs r.1).tgt

/-- Lines 339-348: pair the source and target entry lists element-wise; for
each pair insert one new edge (the collaborator's newEdge primitive joins
the two entries' nodes), flag it as a cluster boundary and set its edge
cluster-id. -/
def connectB (Cidx : Nat) : BState → List (Nat × Bool) → List (Nat × Bool) → BState
  | bs, _, [] => bs
  | bs, [], _ :: _ => bs
  | bs, sa :: ss, ta :: ts =>
    let u := nodeOfAdj bs sa
    let v := nodeOfAdj bs ta
    let e := bs.nextEdge
    connectB Cidx
      { bs with nextEdge := e + 1,
                edges := bs.edges ++ [(e, ⟨u, v⟩)],
                isClusterBoundary := updB bs.isClusterBoundary e true,
                edgeClusterID := updI bs.edgeClusterID e (Int.ofNat Cidx) }
      ss ts

/-- ClusterPlanRep::insertBoundary (lines 238-351): an empty adjacency list
returns immediately (line 264); otherwise the split loop runs, the first
target entry is rotated to the back (lines 335-336) and the new nodes are
connected to form the boundary. -/
def insertBoundary (Cidx : Nat) (isLeaf piR : Bool) (outAdj : List AdjE)
    (bs : BState) (outE : Nat → Nat) (curE : Nat → Option Nat) :
    BState × (Nat → Nat) × (Nat → Option Nat) :=
  match outAdj with
  | [] => (bs, outE, curE)
  | _ :: _ =>
    let s := insBLoop Cidx isLeaf piR ⟨bs, outE, curE, [], []⟩ outAdj
    match s.targetEntries with
    | [] => (s.bs, s.outE, s.curE)
    | flipper :: rest =>
      (connectB Cidx s.bs s.sourceEntries (rest ++ [flipper]), s.outE, s.curE)

/-- One non-root cluster as the boundary-modeling pass sees it: its index,
whether it is a leaf, whether its parent is the root cluster, and its
clockwise cluster-adjacent adjacency-entry list. -/
structure ClusterRec where
  idx : Nat
  isLeaf : Bool
  parentIsRoot : Bool
  outAdj : List AdjE

/-- ClusterPlanRep::convertClusterGraph (lines 207-231), with the post-order
walk of the cluster tree flattened to the list of non-root clusters in
processing order (children before their parent; the root is excluded and
never boundary-modeled). -/
def convertClusterGraph (bs : BState) : List ClusterRec → (Nat → Nat) →
    (Nat → Option Nat) → BState × (Nat → Nat) × (Nat → Option Nat)
  | [], o, c => (bs, o, c)
  | cl :: rest, o, c =>
    let r := insertBoundary cl.idx cl.isLeaf cl.parentIsRoot cl.outAdj bs o c
    convertClusterGraph r.1 rest r.2.1 r.2.2

/-- ClusterPlanRep::ModelBoundaries (lines 189-204): both per-adjEntry maps
start undefined (outEdge at 2, currentEdge at nullptr) and the cluster pass
runs. -/
def ModelBoundaries (bs : BState) (cs : List ClusterRec) :
    BState × (Nat → Nat) × (Nat → Option Nat) :=
  convertClusterGraph bs cs (fun _ => 2) (fun _ => none)

/-- Adjacency-entry keys of one cluster's list. -/
def keysOf (cl : ClusterRec) : List Nat := cl.outAdj.map AdjE.key

/-- Laminarity/post-order consequence used for the direction-flag claim: a
cluster processed later as a leaf shares no adjacency entry with any cluster
processed before it (their node sets are disjoint). -/
def DisjRel (c d : ClusterRec) : Prop :=
  d.isLeaf = true → ∀ x ∈ keysOf c, x ∉ keysOf d

/- ------------------------------------------------------------------ -/
/- Concrete fixtures used by witnesses and counterexamples             -/
/- ------------------------------------------------------------------ -/

/-- Expansion fixture: nodes 1 and 2 form the gadget replacing node 0. -/
def c6En : Nat → Option Nat
  | 1 => some 0
  | 2 => some 0
  | _ => none

/-- Expansion fixture: node 0 carries cluster-id 5, all else unset. -/
def c6F : Nat → Int := fun v => if v = 0 then 5 else -1

/-- initCC fixture: two originals 0, 1 in clusters 1, 2, copies 10, 11,
one copy edge 0 between them (endpoint clusters differ). -/
def c4G : OrigGraph :=
  ⟨[0, 1], fun v => if v = 0 then 1 else 2, fun v => v + 10, [⟨0, 10, 11⟩]⟩

/-- A blank IdState. -/
def c4St : IdState := ⟨fun _ => -1, fun _ => -1⟩

/-- A blank BState carrying a given node cluster-id array. -/
def mkBS (f : Nat → Int) : BState :=
  ⟨0, 0, [], [], f, fun _ => -1, fun _ => false, none⟩

/-- Cluster tree for the C2 counterexample: cluster 1's parent is cluster 0. -/
def c2Par : Nat → Option Nat := fun x => if x = 1 then some 0 else none

/-- Node ids for the C2 counterexample: dummy node 6 lies in cluster 0. -/
def c2Bs : BState := mkBS (fun v => if v = 6 then 0 else -1)

/-- Chain edge for C2: crossing dummy 10, flanked by v1 = 5 (an original in
cluster 1) and v2 = 6 (a dummy). -/
def c2Ce : ChainEdge := ⟨10, 4, 5, 6, some 1, none⟩

/-- Node ids for the C2 witness: dummy node 6 lies in cluster 1. -/
def c2BsW : BState := mkBS (fun v => if v = 6 then 1 else -1)

/-- Cluster tree for the C3 witness: clusters 1 and 2 are siblings under 0. -/
def c3Par : Nat → Option Nat := fun x => if x = 1 ∨ x = 2 then some 0 else none

/-- Node ids for the C3 witness: dummies 5 and 6 lie in clusters 1 and 2. -/
def c3Bs : BState := mkBS (fun v => if v = 5 then 1 else if v = 6 then 2 else -1)

/-- Chain edge for C3: crossing dummy 10 flanked by the two dummies 5, 6. -/
def c3Ce : ChainEdge := ⟨10, 4, 5, 6, none, none⟩

/-- Chain for the C7/C10 witnesses: one real crossing followed by the chain
edge ending at the copy (node 7) of eOrig's target. -/
def c7Chain : List ChainEdge := [c3Ce, ⟨7, 2, 1, 2, some 1, some 1⟩]

/-- Loop-state fixture for the C5 witness: one edge 0 = (0,1), blank maps. -/
def c5S : LoopState :=
  ⟨⟨2, 1, [0, 1], [(0, ⟨0, 1⟩)], fun _ => -1, fun _ => -1, fun _ => false, none⟩,
   fun _ => 2, fun _ => none, [], []⟩

/-- Adjacency entry fixture for the C5 witness: source-side entry of edge 0. -/
def c5A : AdjE := ⟨0, 1, true, 0⟩

/-- Base state for the C8 witness: nodes 0-3, edge 0 = (0,1) crossing the
boundary of cluster 1, edge 1 = (3,2) crossing the boundary of cluster 2. -/
def c8Bs : BState :=
  ⟨4, 2, [0, 1, 2, 3], [(0, ⟨0, 1⟩), (1, ⟨3, 2⟩)],
   fun _ => -1, fun _ => -1, fun _ => false, none⟩

/-- Earlier clusters for the C8 witness: leaf cluster 1 with the outgoing
source-side entry (key 0) of edge 0. -/
def c8Cs1 : List ClusterRec := [⟨1, true, true, [⟨0, 1, true, 0⟩]⟩]

/-- Current cluster for the C8 witness: leaf cluster 2 with the ingoing
target-side entry (key 2) of edge 1. -/
def c8Cl : ClusterRec := ⟨2, true, true, [⟨2, 3, false, 1⟩]⟩

/-- Base state for the C1 scenario: two nodes, one edge 0 = (0, 1), all
cluster-ids unset, no boundary flags, no outer-face reference. -/
def c1Bs : BState :=
  ⟨2, 1, [0, 1], [(0, ⟨0, 1⟩)], fun _ => -1, fun _ => -1, fun _ => false, none⟩

/-- The single cluster-adjacent adjacency entry for the C1 scenario: the
source side of edge 0 (its twin is entry 1). -/
def c1A : AdjE := ⟨0, 1, true, 0⟩

/- ------------------------------------------------------------------ -/
/- Theorems                                                            -/
/- ------------------------------------------------------------------ -/

theorem updI_at (f : Nat → Int) (k : Nat) (v : Int) : updI f k v k = v := by
  simp [updI]

theorem updI_ne (f : Nat → Int) (k x : Nat) (v : Int) (h : x ≠ k) :
    updI f k v x = f x := by
  simp [updI, h]

theorem foldl_updI_not_mem (cp : Nat → Nat) (cl : Nat → Int) :
    ∀ (l : List Nat) (f0 : Nat → Int) (x : Nat),
    (∀ v ∈ l, cp v ≠ x) →
    l.foldl (fun f v => updI f (cp v) (cl v)) f0 x = f0 x := by
  intro l
  induction l with
  | nil => intro f0 x _; rfl
  | cons u rest ih =>
    intro f0 x h
    simp only [List.foldl_cons]
    rw [ih _ x (fun v hv => h v (List.mem_cons_of_mem _ hv))]
    exact updI_ne _ _ _ _ (Ne.symm (h u (List.mem_cons_self _ _)))

theorem foldl_updI_mem (cp : Nat → Nat) (cl : Nat → Int) :
    ∀ (l : List Nat) (f0 : Nat → Int) (x : Nat) (c : Int),
    (∀ u ∈ l, cp u = x → cl u = c) → (∃ v ∈ l, cp v = x) →
    l.foldl (fun f v => updI f (cp v) (cl v)) f0 x = c := by
  intro l
  induction l with
  | nil => intro f0 x c _ hex; exact absurd hex (by simp)
  | cons u rest ih =>
    intro f0 x c hall hex
    simp only [List.foldl_cons]
    by_cases hr : ∃ v ∈ rest, cp v = x
    · exact ih _ x c (fun v hv => hall v (List.mem_cons_of_mem _ hv)) hr
    · have hu : cp u = x := by
        rcases hex with ⟨v, hv, hvx⟩
        rcases List.mem_cons.mp hv with h | h
        · exact h ▸ hvx
        · exact absurd ⟨v, h, hvx⟩ hr
      have hnone : ∀ v ∈ rest, cp v ≠ x := fun v hv hvx => hr ⟨v, hv, hvx⟩
      rw [foldl_updI_not_mem cp cl rest _ x hnone, ← hu, updI_at]
      exact hall u (List.mem_cons_self _ _) hu

theorem foldl_edge_not_mem (nID : Nat → Int) :
    ∀ (l : List CEdge) (f0 : Nat → Int) (y : Nat),
    (∀ e ∈ l, e.id ≠ y) →
    l.foldl (fun f e => if nID e.src = nID e.tgt then updI f e.id (nID e.src) else f)
      f0 y = f0 y := by
  intro l
  induction l with
  | nil => intro f0 y _; rfl
  | cons e0 rest ih =>
    intro f0 y h
    simp only [List.foldl_cons]
    rw [ih _ y (fun e he => h e (List.mem_cons_of_mem _ he))]
    by_cases hc : nID e0.src = nID e0.tgt
    · simp only [hc, if_pos rfl]
      exact updI_ne _ _ _ _ (Ne.symm (h e0 (List.mem_cons_self _ _)))
    · simp [hc]

theorem foldl_edge_mem (nID : Nat → Int) :
    ∀ (l : List CEdge) (f0 : Nat → Int) (e : CEdge),
    (l.map CEdge.id).Nodup → e ∈ l →
    l.foldl (fun f e => if nID e.src = nID e.tgt then updI f e.id (nID e.src) else f)
      f0 e.id = if nID e.src = nID e.tgt then nID e.src else f0 e.id := by
  intro l
  induction l with
  | nil => intro f0 e _ he; exact absurd he (by simp)
  | cons e0 rest ih =>
    intro f0 e hnd he
    have hnd' : (rest.map CEdge.id).Nodup := (List.nodup_cons.mp hnd).2
    have h0 : e0.id ∉ rest.map CEdge.id := (List.nodup_cons.mp hnd).1
    simp only [List.foldl_cons]
    rcases List.mem_cons.mp he with rfl | hmem
    · have hnone : ∀ x ∈ rest, x.id ≠ e.id := by
        intro x hx hxe
        exact h0 (hxe ▸ List.mem_map_of_mem CEdge.id hx)
      rw [foldl_edge_not_mem nID rest _ e.id hnone]
      by_cases hc : nID e.src = nID e.tgt
      · simp [hc, updI_at]
      · simp [hc]
    · have hne : e.id ≠ e0.id := by
        intro hcontra
        exact h0 (hcontra ▸ List.mem_map_of_mem CEdge.id hmem)
      rw [ih _ e hnd' hmem]
      by_cases hc : nID e0.src = nID e0.tgt
      · simp [hc, updI_ne _ _ _ _ hne]
      · simp [hc]

/-- C9: resetForComponent (initCC) is idempotent absent structural change:
running initCC twice for the same component leaves the node and edge
cluster-id arrays exactly as one run does.  The inherited PlanRep::initCC
(spec-modelled) rebuilds the component copy deterministically, so the
result does not depend on the previous array state at all. -/
theorem c9_initCC_idempotent (g : OrigGraph) (st : IdState) :
    initCC g (initCC g st) = initCC g st := rfl

/-- C4: after initCC, every copy of an original node carries its original's
cluster index, every copy edge whose two endpoint copies carry the same
cluster-id carries that value, and every other node and edge carries the
unset sentinel -1.  Hypotheses: the copy map is injective on the component's
originals and copy-edge ids are distinct (both GraphCopy invariants). -/
theorem c4_initCC_resetForComponent (g : OrigGraph) (st : IdState)
    (hinj : ∀ u ∈ g.origNodes, ∀ v ∈ g.origNodes, g.copy u = g.copy v → u = v)
    (hids : (g.copyEdges.map CEdge.id).Nodup) :
    (∀ v ∈ g.origNodes,
        (initCC g st).nodeClusterID (g.copy v) = Int.ofNat (g.clusterOf v)) ∧
    (∀ x, (∀ v ∈ g.origNodes, g.copy v ≠ x) →
        (initCC g st).nodeClusterID x = -1) ∧
    (∀ e ∈ g.copyEdges,
        (initCC g st).nodeClusterID e.src = (initCC g st).nodeClusterID e.tgt →
        (initCC g st).edgeClusterID e.id = (initCC g st).nodeClusterID e.src) ∧
    (∀ e ∈ g.copyEdges,
        (initCC g st).nodeClusterID e.src ≠ (initCC g st).nodeClusterID e.tgt →
        (initCC g st).edgeClusterID e.id = -1) ∧
    (∀ y, (∀ e ∈ g.copyEdges, e.id ≠ y) → (initCC g st).edgeClusterID y = -1) := by
  have hn : (initCC g st).nodeClusterID =
      g.origNodes.foldl
        (fun f v => updI f (g.copy v) (Int.ofNat (g.clusterOf v))) (fun _ => -1) := rfl
  have he : (initCC g st).edgeClusterID =
      g.copyEdges.foldl
        (fun f e => if (initCC g st).nodeClusterID e.src = (initCC g st).nodeClusterID e.tgt
                    then updI f e.id ((initCC g st).nodeClusterID e.src) else f)
        (fun _ => -1) := rfl
  refine ⟨?_, ?_, ?_, ?_, ?_⟩
  · intro v hv
    rw [hn]
    exact foldl_updI_mem _ _ _ _ _ _
      (fun u hu hc => by rw [hinj u hu v hv hc]) ⟨v, hv, rfl⟩
  · intro x hx
    rw [hn]
    exact foldl_updI_not_mem _ _ _ _ _ hx
  · intro e he0 hc
    rw [he, foldl_edge_mem _ _ _ _ hids he0, if_pos hc]
  · intro e he0 hc
    rw [he, foldl_edge_mem _ _ _ _ hids he0, if_neg hc]
  · intro y hy
    rw [he]
    exact foldl_edge_not_mem _ _ _ _ hy

/-- Witness for C4 at a concrete component. -/
theorem c4_initCC_witness :
    (∀ u ∈ c4G.origNodes, ∀ v ∈ c4G.origNodes, c4G.copy u = c4G.copy v → u = v) ∧
    (c4G.copyEdges.map CEdge.id).Nodup ∧
    (initCC c4G c4St).nodeClusterID 10 = 1 ∧
    (initCC c4G c4St).nodeClusterID 3 = -1 ∧
    (initCC c4G c4St).edgeClusterID 0 = -1 := by
  have h := c4_initCC_resetForComponent c4G c4St (by decide) (by decide)
  refine ⟨by decide, by decide, ?_, ?_, ?_⟩
  · have := h.1 0 (by decide)
    simpa [c4G] using this
  · exact h.2.1 3 (by decide)
  · exact h.2.2.2.1 ⟨0, 10, 11⟩ (by decide) (by decide)

theorem exceptBindOk {α β : Type} (a : α) (f : α → Except CPRErr β) :
    (Except.ok a >>= f) = f a := rfl

theorem exceptBindErr {α β : Type} (g : CPRErr) (f : α → Except CPRErr β) :
    ((Except.error g : Except CPRErr α) >>= f) = Except.error g := rfl

theorem expandAux (en : Nat → Option Nat) (f : Nat → Int)
    (h1 : ∀ v w, en v = some w → en w = none) :
    ∀ (l : List Nat) (g : Nat → Int),
    (∀ x, en x = none → g x = f x) →
    (∀ v ∈ l, ∀ w, en v = some w → f w ≠ -1) →
    ∃ g', l.foldlM (expandStep en) g = .ok g' ∧
      (∀ x, en x = none → g' x = f x) ∧
      (∀ x w, en x = some w → g x = f w → g' x = f w) ∧
      (∀ v ∈ l, ∀ w, en v = some w → g' v = f w) := by
  intro l
  induction l with
  | nil =>
    intro g hg _
    exact ⟨g, rfl, hg, fun x w _ h => h, by simp⟩
  | cons v rest ih =>
    intro g hg h2
    cases hv : en v with
    | none =>
      have hstep : expandStep en g v = .ok g := by simp [expandStep, hv]
      rcases ih g hg (fun u hu => h2 u (List.mem_cons_of_mem _ hu)) with
        ⟨g', hrun, hnone, hstab, hproc⟩
      refine ⟨g', by simp [List.foldlM_cons, hstep, exceptBindOk, hrun], hnone, hstab, ?_⟩
      intro u hu w hw
      rcases List.mem_cons.mp hu with rfl | hu'
      · exact absurd (hv ▸ hw) (by simp)
      · exact hproc u hu' w hw
    | some w =>
      have hwnone : en w = none := h1 v w hv
      have hgw : g w = f w := hg w hwnone
      have hfw : f w ≠ -1 := h2 v (List.mem_cons_self _ _) w hv
      have hstep : expandStep en g v = .ok (updI g v (g w)) := by
        simp [expandStep, hv, hgw, hfw]
      have hg1 : ∀ x, en x = none → updI g v (g w) x = f x := by
        intro x hx
        have hxv : x ≠ v := fun hc => by rw [hc, hv] at hx; exact absurd hx (by simp)
        rw [updI_ne _ _ _ _ hxv]; exact hg x hx
      rcases ih (updI g v (g w)) hg1 (fun u hu => h2 u (List.mem_cons_of_mem _ hu)) with
        ⟨g', hrun, hnone, hstab, hproc⟩
      refine ⟨g', by simp [List.foldlM_cons, hstep, exceptBindOk, hrun], hnone, ?_, ?_⟩
      · intro x w0 hx hgx
        refine hstab x w0 hx ?_
        by_cases hxv : x = v
        · subst hxv
          rw [updI_at, hgw]
          rw [hv] at hx
          injection hx with hww
          rw [hww]
        · rw [updI_ne _ _ _ _ hxv]; exact hgx
      · intro u hu w0 hw0
        rcases List.mem_cons.mp hu with rfl | hu'
        · have hww : w0 = w := by rw [hv] at hw0; injection hw0 with h; exact h.symm
          subst hww
          exact hstab u w0 hw0 (by rw [updI_at, hgw])
        · exact hproc u hu' w0 hw0

theorem expandAuxErr (en : Nat → Option Nat) (f : Nat → Int)
    (h1 : ∀ v w, en v = some w → en w = none) :
    ∀ (l : List Nat) (g : Nat → Int),
    (∀ x, en x = none → g x = f x) →
    (∃ v ∈ l, ∃ w, en v = some w ∧ f w = -1) →
    l.foldlM (expandStep en) g = .error .assertFailed := by
  intro l
  induction l with
  | nil => intro g _ hex; exact absurd hex (by simp)
  | cons v rest ih =>
    intro g hg hex
    cases hv : en v with
    | none =>
      have hstep : expandStep en g v = .ok g := by simp [expandStep, hv]
      have hex' : ∃ u ∈ rest, ∃ w, en u = some w ∧ f w = -1 := by
        rcases hex with ⟨u, hu, w, huw, hfw⟩
        rcases List.mem_cons.mp hu with rfl | hu'
        · rw [hv] at huw; exact absurd huw (by simp)
        · exact ⟨u, hu', w, huw, hfw⟩
      simp [List.foldlM_cons, hstep, exceptBindOk, ih g hg hex']
    | some w =>
      have hwnone : en w = none := h1 v w hv
      have hgw : g w = f w := hg w hwnone
      by_cases hfw : f w = -1
      · have hstep : expandStep en g v = .error .assertFailed := by
          simp [expandStep, hv, hgw, hfw]
        simp [List.foldlM_cons, hstep, exceptBindErr]
      · have hstep : expandStep en g v = .ok (updI g v (g w)) := by
          simp [expandStep, hv, hgw, hfw]
        have hg1 : ∀ x, en x = none → updI g v (g w) x = f x := by
          intro x hx
          have hxv : x ≠ v := fun hc => by rw [hc, hv] at hx; exact absurd hx (by simp)
          rw [updI_ne _ _ _ _ hxv]; exact hg x hx
        have hex' : ∃ u ∈ rest, ∃ w0, en u = some w0 ∧ f w0 = -1 := by
          rcases hex with ⟨u, hu, w0, huw, hfw0⟩
          rcases List.mem_cons.mp hu with rfl | hu'
          · rw [hv] at huw
            injection huw with hww
            exact absurd (hww ▸ hfw0) hfw
          · exact ⟨u, hu', w0, huw, hfw0⟩
        simp [List.foldlM_cons, hstep, exceptBindOk, ih _ hg1 hex']

/-- C6: after expand / expandLowDegreeVertices, every gadget node (a node v
with expandedNode(v) set) carries the replaced vertex's cluster-id, under the
precondition that each replaced vertex's cluster-id is set; an unset value
there trips the assertion (not recovered).  Hypothesis h1: a replaced vertex
is not itself a gadget node (it is an original copy). -/
theorem c6_expand_propagates (nodesL : List Nat) (en : Nat → Option Nat)
    (f : Nat → Int) (h1 : ∀ v w, en v = some w → en w = none) :
    ((∀ v ∈ nodesL, ∀ w, en v = some w → f w ≠ -1) →
      ∃ f', expand nodesL en f = .ok f' ∧
        expandLowDegreeVertices nodesL en f = .ok f' ∧
        (∀ v ∈ nodesL, ∀ w, en v = some w → f' v = f w) ∧
        (∀ x, en x = none → f' x = f x)) ∧
    ((∃ v ∈ nodesL, ∃ w, en v = some w ∧ f w = -1) →
      expand nodesL en f = .error .assertFailed ∧
      expandLowDegreeVertices nodesL en f = .error .assertFailed) := by
  constructor
  · intro h2
    rcases expandAux en f h1 nodesL f (fun _ _ => rfl) h2 with ⟨f', hrun, hnone, _, hproc⟩
    exact ⟨f', hrun, hrun, hproc, hnone⟩
  · intro hex
    have h := expandAuxErr en f h1 nodesL f (fun _ _ => rfl) hex
    exact ⟨h, h⟩

/-- Witness for C6: a 2-node gadget (nodes 1, 2) replacing node 0 whose
cluster-id is 5; both gadget nodes end with cluster-id 5. -/
theorem c6_expand_witness :
    (∀ v w, c6En v = some w → c6En w = none) ∧
    (∃ f', expand [0, 1, 2, 3] c6En c6F = .ok f' ∧ f' 1 = 5 ∧ f' 2 = 5) := by
  have h1 : ∀ v w, c6En v = some w → c6En w = none := by
    intro v w h
    match v, h with
    | 1, h => injection h with h'; rw [← h']; rfl
    | 2, h => injection h with h'; rw [← h']; rfl
  have h2 : ∀ v ∈ [0, 1, 2, 3], ∀ w, c6En v = some w → c6F w ≠ -1 := by
    intro v hv w hw
    fin_cases hv
    · exact absurd hw (by simp [c6En])
    · injection hw with h'; rw [← h']; decide
    · injection hw with h'; rw [← h']; decide
    · exact absurd hw (by simp [c6En])
  rcases (c6_expand_propagates [0, 1, 2, 3] c6En c6F h1).1 h2 with
    ⟨f', hrun, _, hproc, _⟩
  refine ⟨h1, f', hrun, ?_, ?_⟩
  · have := hproc 1 (by decide) 0 rfl
    rw [this]; rfl
  · have := hproc 2 (by decide) 0 rfl
    rw [this]; rfl

theorem resNodeId_okDef (s : BState) (v : Nat) :
    resNodeId (.ok s) v = some (s.nodeClusterID v) := rfl

theorem resErr_okDef (s : BState) : resErr (.ok s) = none := rfl

theorem writeNodeId_at (bs : BState) (v : Nat) (x : Int) :
    (writeNodeId bs v x).nodeClusterID v = x := by
  simp [writeNodeId, updI]

theorem writeNodeId_ne (bs : BState) (v u : Nat) (x : Int) (h : u ≠ v) :
    (writeNodeId bs v x).nodeClusterID u = bs.nodeClusterID u := by
  simp [writeNodeId, updI, h]

theorem resolveOneOriginal_okShape (par : Nat → Option Nat) (bs : BState)
    (d orC : Nat) (dId : Int) (bs2 : BState)
    (h : resolveOneOriginal par bs d orC dId = .ok bs2) :
    ∃ x, bs2 = writeNodeId bs d x := by
  unfold resolveOneOriginal at h
  split at h
  · exact absurd h (by simp)
  · split_ifs at h <;> (injection h with h'; exact ⟨_, h'.symm⟩)

theorem resolveNoOriginal_okShape (par : Nat → Option Nat) (bs : BState)
    (d c1 c2 : Nat) (bs2 : BState)
    (h : resolveNoOriginal par bs d c1 c2 = .ok bs2) :
    ∃ x, bs2 = writeNodeId bs d x := by
  unfold resolveNoOriginal at h
  split_ifs at h
  · injection h with h'; exact ⟨_, h'.symm⟩
  · injection h with h'; exact ⟨_, h'.symm⟩
  · injection h with h'; exact ⟨_, h'.symm⟩
  · split at h
    · injection h with h'; exact ⟨_, h'.symm⟩
    · exact absurd h (by simp)

theorem resolveCrossingStep_okShape (par : Nat → Option Nat) (ct : Nat)
    (bs : BState) (ce : ChainEdge) (bs2 : BState)
    (h : resolveCrossingStep par ct bs ce = .ok bs2) :
    bs2 = bs ∨ (ce.target ≠ ct ∧ ce.deg = 4 ∧ ∃ x, bs2 = writeNodeId bs ce.target x) := by
  unfold resolveCrossingStep at h
  by_cases hsk : ce.target = ct
  · rw [if_pos hsk] at h
    injection h with h'
    exact Or.inl h'.symm
  · rw [if_neg hsk] at h
    by_cases hdeg : ce.deg = 4
    · rw [if_neg (by simp [hdeg])] at h
      by_cases hvv : ce.v1 = ce.target ∨ ce.v2 = ce.target
      · rw [if_pos hvv] at h; exact absurd h (by simp)
      · rw [if_neg hvv] at h
        refine Or.inr ⟨hsk, hdeg, ?_⟩
        split at h
        · split_ifs at h
          injection h with h'
          exact ⟨_, h'.symm⟩
        · exact resolveOneOriginal_okShape _ _ _ _ _ _ h
        · exact resolveOneOriginal_okShape _ _ _ _ _ _ h
        · split at h <;>
            first
              | exact resolveNoOriginal_okShape _ _ _ _ _ _ h
              | exact absurd h (by simp)
    · rw [if_pos (by simp [hdeg])] at h
      exact absurd h (by simp)

/-- C7: the crossing-resolution pass of insertEdgePathEmbedded modifies only
the node cluster-id array, and only at targets of the inserted chain other
than the copy of eOrig's target: the edge cluster-ids, the boundary flags,
the outer-face reference and the graph structure are untouched, and so is
every node that is not a chain-edge target (or is the skipped endpoint
copy). -/
theorem c7_resolvePass_frame (par : Nat → Option Nat) (ct : Nat)
    (chain : List ChainEdge) : ∀ bs : BState,
    ((resolvePass par ct bs chain).1.nextNode = bs.nextNode ∧
     (resolvePass par ct bs chain).1.nextEdge = bs.nextEdge ∧
     (resolvePass par ct bs chain).1.nodes = bs.nodes ∧
     (resolvePass par ct bs chain).1.edges = bs.edges ∧
     (∀ x, (resolvePass par ct bs chain).1.edgeClusterID x = bs.edgeClusterID x) ∧
     (∀ x, (resolvePass par ct bs chain).1.isClusterBoundary x = bs.isClusterBoundary x) ∧
     (resolvePass par ct bs chain).1.rootAdj = bs.rootAdj) ∧
    (∀ v, (v = ct ∨ ∀ ce ∈ chain, ce.target ≠ v) →
      (resolvePass par ct bs chain).1.nodeClusterID v = bs.nodeClusterID v) := by
  induction chain with
  | nil =>
    intro bs
    exact ⟨⟨rfl, rfl, rfl, rfl, fun _ => rfl, fun _ => rfl, rfl⟩, fun _ _ => rfl⟩
  | cons ce rest ih =>
    intro bs
    simp only [resolvePass]
    cases hstep : resolveCrossingStep par ct bs ce with
    | error g =>
      exact ⟨⟨rfl, rfl, rfl, rfl, fun _ => rfl, fun _ => rfl, rfl⟩, fun _ _ => rfl⟩
    | ok bs2 =>
      have hframe : bs2.nextNode = bs.nextNode ∧ bs2.nextEdge = bs.nextEdge ∧
          bs2.nodes = bs.nodes ∧ bs2.edges = bs.edges ∧
          (∀ x, bs2.edgeClusterID x = bs.edgeClusterID x) ∧
          (∀ x, bs2.isClusterBoundary x = bs.isClusterBoundary x) ∧
          bs2.rootAdj = bs.rootAdj := by
        rcases resolveCrossingStep_okShape par ct bs ce bs2 hstep with rfl | ⟨_, _, x, rfl⟩
        · exact ⟨rfl, rfl, rfl, rfl, fun _ => rfl, fun _ => rfl, rfl⟩
        · exact ⟨rfl, rfl, rfl, rfl, fun _ => rfl, fun _ => rfl, rfl⟩
      rcases ih bs2 with ⟨⟨i1, i2, i3, i4, i5, i6, i7⟩, i8⟩
      refine ⟨⟨i1.trans hframe.1, i2.trans hframe.2.1, i3.trans hframe.2.2.1,
        i4.trans hframe.2.2.2.1,
        fun x => (i5 x).trans (hframe.2.2.2.2.1 x),
        fun x => (i6 x).trans (hframe.2.2.2.2.2.1 x),
        i7.trans hframe.2.2.2.2.2.2⟩, ?_⟩
      intro v hv
      have hrest : v = ct ∨ ∀ ce2 ∈ rest, ce2.target ≠ v := by
        rcases hv with h | h
        · exact Or.inl h
        · exact Or.inr fun ce2 h2 => h ce2 (List.mem_cons_of_mem _ h2)
      rw [i8 v hrest]
      rcases resolveCrossingStep_okShape par ct bs ce bs2 hstep with rfl | ⟨hct, _, x, rfl⟩
      · rfl
      · refine writeNodeId_ne _ _ _ _ ?_
        rcases hv with rfl | h
        · exact fun hc => hct hc.symm
        · exact fun hc => h ce (List.mem_cons_self _ _) hc.symm

/-- Witness for C7 at a concrete chain: one crossing between two sibling
cluster dummies, and the skipped final chain edge; the boundary flag, edge
ids, outer face and an untouched node id are preserved. -/
theorem c7_resolvePass_frame_witness :
    (resolvePass c3Par 7 c3Bs c7Chain).1.edges = c3Bs.edges ∧
    (resolvePass c3Par 7 c3Bs c7Chain).1.rootAdj = c3Bs.rootAdj ∧
    (resolvePass c3Par 7 c3Bs c7Chain).1.edgeClusterID 0 = c3Bs.edgeClusterID 0 ∧
    (resolvePass c3Par 7 c3Bs c7Chain).1.nodeClusterID 5 = c3Bs.nodeClusterID 5 := by
  have h := c7_resolvePass_frame c3Par 7 c7Chain c3Bs
  exact ⟨h.1.2.2.2.1, h.1.2.2.2.2.2.2, h.1.2.2.2.2.1 0,
    h.2 5 (Or.inr (by decide))⟩

/-- C10: during crossing resolution the chain node that is the copy of the
inserted edge's original target is skipped (its cluster-id is never
written), and every node whose cluster-id the pass does write is a chain
target of degree 4 distinct from that copy. -/
theorem c10_endpoint_skipped (par : Nat → Option Nat) (ct : Nat)
    (chain : List ChainEdge) : ∀ bs : BState,
    ((resolvePass par ct bs chain).1.nodeClusterID ct = bs.nodeClusterID ct) ∧
    (∀ v, (resolvePass par ct bs chain).1.nodeClusterID v ≠ bs.nodeClusterID v →
      v ≠ ct ∧ ∃ ce ∈ chain, ce.target = v ∧ ce.deg = 4) := by
  induction chain with
  | nil => intro bs; exact ⟨rfl, fun v hv => absurd rfl hv⟩
  | cons ce rest ih =>
    intro bs
    simp only [resolvePass]
    cases hstep : resolveCrossingStep par ct bs ce with
    | error g => exact ⟨rfl, fun v hv => absurd rfl hv⟩
    | ok bs2 =>
      rcases resolveCrossingStep_okShape par ct bs ce bs2 hstep with heq | ⟨hct, hdeg, x, heq⟩
      · rw [heq]
        rcases ih bs with ⟨i1, i2⟩
        refine ⟨i1, fun v hv => ?_⟩
        rcases i2 v hv with ⟨h1, ce2, h2, h3⟩
        exact ⟨h1, ce2, List.mem_cons_of_mem _ h2, h3⟩
      · rw [heq]
        rcases ih (writeNodeId bs ce.target x) with ⟨i1, i2⟩
        constructor
        · rw [i1]
          exact writeNodeId_ne _ _ _ _ fun hc => hct hc.symm
        · intro v hv
          by_cases hveq : (writeNodeId bs ce.target x).nodeClusterID v = bs.nodeClusterID v
          · have hv2 : (resolvePass par ct (writeNodeId bs ce.target x) rest).1.nodeClusterID v ≠
                (writeNodeId bs ce.target x).nodeClusterID v := by
              rw [hveq]; exact hv
            rcases i2 v hv2 with ⟨h1, ce2, h2, h3⟩
            exact ⟨h1, ce2, List.mem_cons_of_mem _ h2, h3⟩
          · have hvt : v = ce.target := by
              by_contra hne
              exact hveq (writeNodeId_ne _ _ _ _ hne)
            refine ⟨fun hc => hct (hvt ▸ hc), ce, List.mem_cons_self _ _, hvt.symm, hdeg⟩

/-- Witness for C10: in the concrete chain, node 7 (the endpoint copy) keeps
its cluster-id, and the only changed node is the degree-4 crossing 10. -/
theorem c10_endpoint_skipped_witness :
    (resolvePass c3Par 7 c3Bs c7Chain).1.nodeClusterID 7 = c3Bs.nodeClusterID 7 ∧
    ((resolvePass c3Par 7 c3Bs c7Chain).1.nodeClusterID 10 ≠ c3Bs.nodeClusterID 10 →
      10 ≠ 7 ∧ ∃ ce ∈ c7Chain, ce.target = 10 ∧ ce.deg = 4) := by
  have h := c10_endpoint_skipped c3Par 7 c7Chain c3Bs
  exact ⟨h.1, h.2 10⟩

theorem resolveOneOriginal_eq (par : Nat → Option Nat) (bs : BState)
    (d orC dC : Nat) (dId : Int) (hdc : clusterOfDummy dId = some dC) :
    resolveOneOriginal par bs d orC dId =
      (if orC = dC ∨ some orC = par dC ∨ par orC = some dC then
        if orC = dC then Except.ok (writeNodeId bs d (Int.ofNat orC))
        else if some orC = par dC then Except.ok (writeNodeId bs d (Int.ofNat orC))
        else Except.error CPRErr.algFailure
      else Except.error CPRErr.assertFailed) := by
  unfold resolveOneOriginal
  rw [hdc]

/-- C2 (amended): when exactly one flanking node is an original (cluster
orC) and the other a dummy (cluster dC), the crossing dummy is assigned
orC's index when orC == dC or orC == parent(dC); the
AlgorithmFailureException is raised if and only if neither of those two
relations holds while dC == parent(orC) does (when none of the three
relations holds, the OGDF_ASSERT trips first, a distinct signal). -/
theorem c2_one_original_amended (par : Nat → Option Nat) (bs : BState)
    (ce : ChainEdge) (ct orC dC vD : Nat)
    (hskip : ce.target ≠ ct) (hdeg : ce.deg = 4)
    (hv : ¬(ce.v1 = ce.target ∨ ce.v2 = ce.target))
    (hor : (ce.orC1 = some orC ∧ ce.orC2 = none ∧ vD = ce.v2) ∨
           (ce.orC1 = none ∧ ce.orC2 = some orC ∧ vD = ce.v1))
    (hdc : clusterOfDummy (bs.nodeClusterID vD) = some dC) :
    ((orC = dC ∨ some orC = par dC) →
        resErr (resolveCrossingStep par ct bs ce) = none ∧
        resNodeId (resolveCrossingStep par ct bs ce) ce.target = some (Int.ofNat orC)) ∧
    (resErr (resolveCrossingStep par ct bs ce) = some CPRErr.algFailure ↔
        (orC ≠ dC ∧ some orC ≠ par dC ∧ par orC = some dC)) := by
  have hred : resolveCrossingStep par ct bs ce =
      resolveOneOriginal par bs ce.target orC (bs.nodeClusterID vD) := by
    unfold resolveCrossingStep
    rcases hor with ⟨h1, h2, h3⟩ | ⟨h1, h2, h3⟩ <;>
      rw [if_neg hskip, if_neg (by simp [hdeg]), if_neg hv, h1, h2, h3]
  rw [hred, resolveOneOriginal_eq par bs ce.target orC dC _ hdc]
  constructor
  · intro hcase
    rw [if_pos (Or.elim hcase (fun h => Or.inl h) (fun h => Or.inr (Or.inl h)))]
    by_cases h1 : orC = dC
    · rw [if_pos h1]
      exact ⟨rfl, by rw [resNodeId_okDef, writeNodeId_at]⟩
    · rcases hcase with h | h
      · exact absurd h h1
      · rw [if_neg h1, if_pos h]
        exact ⟨rfl, by rw [resNodeId_okDef, writeNodeId_at]⟩
  · constructor
    · intro herr
      by_cases ha : orC = dC ∨ some orC = par dC ∨ par orC = some dC
      · rw [if_pos ha] at herr
        by_cases h1 : orC = dC
        · rw [if_pos h1] at herr
          exact absurd herr (by simp [resErr])
        · rw [if_neg h1] at herr
          by_cases h2 : some orC = par dC
          · rw [if_pos h2] at herr
            exact absurd herr (by simp [resErr])
          · refine ⟨h1, h2, ?_⟩
            rcases ha with h | h | h
            · exact absurd h h1
            · exact absurd h h2
            · exact h
      · rw [if_neg ha] at herr
        exact absurd herr (by simp [resErr])
    · rintro ⟨h1, h2, h3⟩
      rw [if_pos (Or.inr (Or.inr h3)), if_neg h1, if_neg h2]
      rfl

/-- Counterexample to C2 as stated: with orC = 1, dC = 0 and parent(1) = 0,
the third relation dC == parent(orC) holds, yet the code raises
AlgorithmFailureException, so the failure signal is not raised "iff none of
the three relations holds". -/
theorem c2_counterexample :
    resErr (resolveCrossingStep c2Par 99 c2Bs c2Ce) = some CPRErr.algFailure ∧
    c2Par 1 = some 0 ∧
    ¬(resErr (resolveCrossingStep c2Par 99 c2Bs c2Ce) = some CPRErr.algFailure ↔
        ¬((1 : Nat) = 0 ∨ some (1 : Nat) = c2Par 0 ∨ c2Par 1 = some 0)) := by
  decide

/-- Witness for the amended C2: with orC = dC = 1 the crossing dummy is
assigned cluster-id 1 and no failure is raised. -/
theorem c2_one_original_witness :
    c2Ce.target ≠ 99 ∧ clusterOfDummy (c2BsW.nodeClusterID 6) = some 1 ∧
    resErr (resolveCrossingStep c2Par 99 c2BsW c2Ce) = none ∧
    resNodeId (resolveCrossingStep c2Par 99 c2BsW c2Ce) c2Ce.target = some 1 := by
  have h := c2_one_original_amended c2Par c2BsW c2Ce 99 1 1 6 (by decide) (by decide)
    (by decide) (Or.inl ⟨rfl, rfl, rfl⟩) (by decide)
  have h2 := h.1 (Or.inl rfl)
  exact ⟨by decide, by decide, h2.1, h2.2⟩

/-- C3: when neither flanking node is an original, the crossing dummy gets
c1 if c1 == c2, else c1 if c1 == parent(c2), else c2 if c2 == parent(c1),
and otherwise parent(c1); in particular two sibling cluster dummies under a
common parent P yield cluster-id P.  Hypotheses: both ids resolve to
clusters, no cluster is its own parent, the root is unique, and the
structural assertion of line 169 holds. -/
theorem c3_no_original (par : Nat → Option Nat) (bs : BState) (ce : ChainEdge)
    (ct c1 c2 : Nat)
    (hskip : ce.target ≠ ct) (hdeg : ce.deg = 4)
    (hv : ¬(ce.v1 = ce.target ∨ ce.v2 = ce.target))
    (hor : ce.orC1 = none ∧ ce.orC2 = none)
    (hc1 : clusterOfDummy (bs.nodeClusterID ce.v1) = some c1)
    (hc2 : clusterOfDummy (bs.nodeClusterID ce.v2) = some c2)
    (hirr1 : par c1 ≠ some c1) (hirr2 : par c2 ≠ some c2)
    (hroot : par c1 = none → par c2 = none → c1 = c2)
    (hassert : c1 = c2 ∨ some c1 = par c2 ∨ par c1 = some c2 ∨ par c1 = par c2) :
    ((c1 = c2 →
        resNodeId (resolveCrossingStep par ct bs ce) ce.target = some (Int.ofNat c1)) ∧
     (c1 ≠ c2 → some c1 = par c2 →
        resNodeId (resolveCrossingStep par ct bs ce) ce.target = some (Int.ofNat c1)) ∧
     (c1 ≠ c2 → some c1 ≠ par c2 → some c2 = par c1 →
        resNodeId (resolveCrossingStep par ct bs ce) ce.target = some (Int.ofNat c2)) ∧
     (c1 ≠ c2 → some c1 ≠ par c2 → some c2 ≠ par c1 →
        ∃ p, par c1 = some p ∧ par c2 = some p ∧
          resNodeId (resolveCrossingStep par ct bs ce) ce.target = some (Int.ofNat p)) ∧
     (∀ P, par c1 = some P → par c2 = some P → c1 ≠ c2 →
        resNodeId (resolveCrossingStep par ct bs ce) ce.target = some (Int.ofNat P))) := by
  have hred : resolveCrossingStep par ct bs ce =
      resolveNoOriginal par bs ce.target c1 c2 := by
    unfold resolveCrossingStep
    rw [if_neg hskip, if_neg (by simp [hdeg]), if_neg hv, hor.1, hor.2, hc1, hc2]
  rw [hred]
  unfold resolveNoOriginal
  rw [if_pos hassert]
  have hfall : c1 ≠ c2 → some c1 ≠ par c2 → some c2 ≠ par c1 →
      ∃ p, par c1 = some p ∧ par c2 = some p ∧
        resNodeId
          (if c1 = c2 then Except.ok (writeNodeId bs ce.target (Int.ofNat c1))
           else if some c1 = par c2 then Except.ok (writeNodeId bs ce.target (Int.ofNat c1))
           else if some c2 = par c1 then Except.ok (writeNodeId bs ce.target (Int.ofNat c2))
           else match par c1 with
                | some p => Except.ok (writeNodeId bs ce.target (Int.ofNat p))
                | none => Except.error CPRErr.nullDeref) ce.target = some (Int.ofNat p) := by
    intro h1 h2 h3
    have hpp : par c1 = par c2 := by
      rcases hassert with h | h | h | h
      · exact absurd h h1
      · exact absurd h h2
      · exact absurd h.symm h3
      · exact h
    cases hp : par c1 with
    | none => exact absurd (hroot hp (hpp ▸ hp)) h1
    | some p =>
      refine ⟨p, rfl, hpp ▸ hp, ?_⟩
      rw [if_neg h1, if_neg h2, if_neg (hp ▸ h3)]
      show resNodeId (Except.ok (writeNodeId bs ce.target (Int.ofNat p))) ce.target =
        some (Int.ofNat p)
      rw [resNodeId_okDef, writeNodeId_at]
  refine ⟨?_, ?_, ?_, hfall, ?_⟩
  · intro h1
    rw [if_pos h1, resNodeId_okDef, writeNodeId_at]
  · intro h1 h2
    rw [if_neg h1, if_pos h2, resNodeId_okDef, writeNodeId_at]
  · intro h1 h2 h3
    rw [if_neg h1, if_neg h2, if_pos h3, resNodeId_okDef, writeNodeId_at]
  · intro P hP1 hP2 h12
    have h2 : some c1 ≠ par c2 := by
      rw [hP2]
      intro hc
      injection hc with hc'
      exact hirr1 (by rw [hc'] at hP1; rw [hc', hP1])
    have h3 : some c2 ≠ par c1 := by
      rw [hP1]
      intro hc
      injection hc with hc'
      exact hirr2 (by rw [hc'] at hP2; rw [hc', hP2])
    rcases hfall h12 h2 h3 with ⟨p, hp1, _, hres⟩
    rw [hP1] at hp1
    injection hp1 with hp'
    rw [hp']
    exact hres

/-- Witness for C3 at the sibling scenario: dummies in clusters 1 and 2
under common parent 0; the crossing dummy receives cluster-id 0. -/
theorem c3_no_original_witness :
    c3Par 1 = some 0 ∧ c3Par 2 = some 0 ∧
    resNodeId (resolveCrossingStep c3Par 99 c3Bs c3Ce) c3Ce.target = some 0 := by
  have h := c3_no_original c3Par c3Bs c3Ce 99 1 2 (by decide) (by decide) (by decide)
    ⟨rfl, rfl⟩ (by decide) (by decide) (by decide) (by decide)
    (fun ha => absurd (by decide : c3Par 1 ≠ none) (fun hne => hne ha)) (by decide)
  exact ⟨by decide, by decide, h.2.2.2.2 0 (by decide) (by decide) (by decide)⟩

theorem lookupEdge_append_left (es l2 : List (Nat × EdgeRec)) (x : Nat) (r : EdgeRec)
    (h : lookupEdge es x = some r) : lookupEdge (es ++ l2) x = some r := by
  induction es with
  | nil => exact absurd h (by simp [lookupEdge])
  | cons p ps ih =>
    rw [List.cons_append, lookupEdge]
    rw [lookupEdge] at h
    by_cases hp : p.1 = x
    · rw [if_pos hp] at h ⊢; exact h
    · rw [if_neg hp] at h ⊢; exact ih h

theorem lookupEdge_none_append (es l2 : List (Nat × EdgeRec)) (x : Nat)
    (h : lookupEdge es x = none) : lookupEdge (es ++ l2) x = lookupEdge l2 x := by
  induction es with
  | nil => rfl
  | cons p ps ih =>
    rw [List.cons_append, lookupEdge]
    rw [lookupEdge] at h
    by_cases hp : p.1 = x
    · rw [if_pos hp] at h; exact absurd h (by simp)
    · rw [if_neg hp] at h ⊢; exact ih h

theorem lookupEdge_not_mem (es : List (Nat × EdgeRec)) (x : Nat)
    (h : x ∉ es.map Prod.fst) : lookupEdge es x = none := by
  induction es with
  | nil => rfl
  | cons p ps ih =>
    rw [lookupEdge]
    have hp : p.1 ≠ x := fun hc => h (by simp [hc])
    rw [if_neg hp]
    exact ih fun hc => h (List.mem_cons_of_mem _ hc)

theorem mem_of_lookupEdge (es : List (Nat × EdgeRec)) (x : Nat) (r : EdgeRec)
    (h : lookupEdge es x = some r) : x ∈ es.map Prod.fst := by
  induction es with
  | nil => exact absurd h (by simp [lookupEdge])
  | cons p ps ih =>
    rw [lookupEdge] at h
    by_cases hp : p.1 = x
    · exact hp ▸ List.mem_cons_self _ _
    · rw [if_neg hp] at h
      exact List.mem_cons_of_mem _ (ih h)

theorem lookupEdge_setTgt_ne (es : List (Nat × EdgeRec)) (e w x : Nat) (h : x ≠ e) :
    lookupEdge (setTgt es e w) x = lookupEdge es x := by
  induction es with
  | nil => rfl
  | cons p ps ih =>
    rw [setTgt, lookupEdge, lookupEdge]
    by_cases hp : p.1 = e
    · rw [if_pos hp]
      have : x ≠ p.1 := hp ▸ h
      rw [if_neg (by simpa using fun hc : p.1 = x => this hc.symm),
          if_neg (fun hc : p.1 = x => this hc.symm)]
      exact ih
    · rw [if_neg hp]
      by_cases hx : p.1 = x
      · rw [if_pos hx, if_pos hx]
      · rw [if_neg hx, if_neg hx]; exact ih

theorem lookupEdge_setTgt_eq (es : List (Nat × EdgeRec)) (e w : Nat) (r : EdgeRec)
    (h : lookupEdge es e = some r) :
    lookupEdge (setTgt es e w) e = some ⟨r.src, w⟩ := by
  induction es with
  | nil => exact absurd h (by simp [lookupEdge])
  | cons p ps ih =>
    rw [setTgt, lookupEdge]
    rw [lookupEdge] at h
    by_cases hp : p.1 = e
    · rw [if_pos hp] at h
      injection h with h'
      rw [if_pos hp, if_pos hp]
      rw [← h']
    · rw [if_neg hp] at h
      rw [if_neg hp, if_neg hp]
      exact ih h

theorem setTgt_map_fst (es : List (Nat × EdgeRec)) (e w : Nat) :
    (setTgt es e w).map Prod.fst = es.map Prod.fst := by
  induction es with
  | nil => rfl
  | cons p ps ih =>
    rw [setTgt, List.map_cons, List.map_cons, ih]
    by_cases hp : p.1 = e
    · rw [if_pos hp]
    · rw [if_neg hp]

theorem curResolved_at (isLeaf : Bool) (cur : Nat → Option Nat) (a : AdjE) :
    curResolved isLeaf cur a a.key = some ((cur a.key).getD a.copyEdge) := by
  unfold curResolved curAfterLeaf
  cases hc : cur a.key with
  | none => cases isLeaf <;> simp [updO, hc]
  | some v => cases isLeaf <;> simp [updO, hc]

theorem curResolved_ne (isLeaf : Bool) (cur : Nat → Option Nat) (a : AdjE) (k : Nat)
    (h : k ≠ a.key) : curResolved isLeaf cur a k = cur k := by
  unfold curResolved curAfterLeaf
  cases isLeaf <;> split_ifs <;> simp_all [updO]

/-- C5: in step 3 of boundary insertion, after splitting the edge currently
realizing half-edge e (the resolved currentEdge entry): if direction[e] is
outgoing (1), both currentEdge[e] and currentEdge[twin e] are rebound to the
newly split-off edge, which runs from the split node to the old far endpoint
(the piece outside the cluster); if direction[e] is incoming (0), the whole
currentEdge map stays as resolved — the entry and its twin keep their
edges — and the kept edge now runs from its old source (the side still
reachable by unprocessed ancestor clusters) to the split node. -/
theorem c5_currentEdge_rebinding (Cidx : Nat) (isLeaf piR isLast : Bool)
    (s : LoopState) (a : AdjE) (r : EdgeRec)
    (hse : lookupEdge s.bs.edges ((s.curE a.key).getD a.copyEdge) = some r)
    (hb : ∀ id ∈ s.bs.edges.map Prod.fst, id < s.bs.nextEdge) :
    (outAfterStep isLeaf s.outE a a.key = 1 →
      (insBStep Cidx isLeaf piR isLast s a).curE a.key = some s.bs.nextEdge ∧
      (insBStep Cidx isLeaf piR isLast s a).curE a.twinKey = some s.bs.nextEdge ∧
      lookupEdge (insBStep Cidx isLeaf piR isLast s a).bs.edges s.bs.nextEdge =
        some ⟨s.bs.nextNode, r.tgt⟩ ∧
      (∀ k, k ≠ a.key → k ≠ a.twinKey →
        (insBStep Cidx isLeaf piR isLast s a).curE k =
          curResolved isLeaf s.curE a k)) ∧
    (outAfterStep isLeaf s.outE a a.key = 0 →
      (∀ k, (insBStep Cidx isLeaf piR isLast s a).curE k =
         curResolved isLeaf s.curE a k) ∧
      lookupEdge (insBStep Cidx isLeaf piR isLast s a).bs.edges
        ((s.curE a.key).getD a.copyEdge) = some ⟨r.src, s.bs.nextNode⟩) := by
  have hc1 := curResolved_at isLeaf s.curE a
  have hget : getEdge s.bs ((s.curE a.key).getD a.copyEdge) = r := by
    rw [getEdge, hse]; rfl
  have hnot : lookupEdge (setTgt s.bs.edges ((s.curE a.key).getD a.copyEdge)
      s.bs.nextNode) s.bs.nextEdge = none := by
    apply lookupEdge_not_mem
    rw [setTgt_map_fst]
    intro hmem
    exact absurd (hb _ hmem) (by omega)
  constructor
  · intro hout
    simp only [insBStep, split, hc1, Option.getD_some, hget]
    rw [if_pos hout]
    refine ⟨?_, ?_, ?_, ?_⟩
    · by_cases ht : a.key = a.twinKey <;> simp [updO, ht]
    · simp [updO]
    · rw [lookupEdge_none_append _ _ _ hnot, lookupEdge]
      simp
    · intro k hk ht
      simp [updO, hk, ht]
  · intro hin
    have hne1 : ¬(outAfterStep isLeaf s.outE a a.key = 1) := by rw [hin]; decide
    simp only [insBStep, split, hc1, Option.getD_some, hget]
    rw [if_neg hne1]
    refine ⟨fun k => rfl, ?_⟩
    exact lookupEdge_append_left _ _ _ _ (lookupEdge_setTgt_eq _ _ _ _ hse)

/-- Witness for C5 at a concrete outgoing half-edge: the split of edge 0
rebinds currentEdge for the entry and its twin to the new edge 1 = (2, 1). -/
theorem c5_currentEdge_witness :
    lookupEdge c5S.bs.edges ((c5S.curE c5A.key).getD c5A.copyEdge) = some ⟨0, 1⟩ ∧
    outAfterStep true c5S.outE c5A c5A.key = 1 ∧
    (insBStep 1 true true true c5S c5A).curE c5A.key = some 1 ∧
    (insBStep 1 true true true c5S c5A).curE c5A.twinKey = some 1 ∧
    lookupEdge (insBStep 1 true true true c5S c5A).bs.edges 1 = some ⟨2, 1⟩ := by
  have h := c5_currentEdge_rebinding 1 true true true c5S c5A ⟨0, 1⟩ (by decide) (by decide)
  have h2 := h.1 (by decide)
  exact ⟨by decide, by decide, h2.1, h2.2.1, h2.2.2.1⟩

theorem insBStep_outE (Cidx : Nat) (isLeaf piR isLast : Bool) (s : LoopState)
    (a : AdjE) :
    (insBStep Cidx isLeaf piR isLast s a).outE = outAfterStep isLeaf s.outE a := by
  by_cases h : outAfterStep isLeaf s.outE a a.key = 1
  · simp only [insBStep]; rw [if_pos h]
  · simp only [insBStep]; rw [if_neg h]

theorem outAfterStep_ne (isLeaf : Bool) (o : Nat → Nat) (a : AdjE) (k : Nat)
    (h : k ≠ a.key) : outAfterStep isLeaf o a k = o k := by
  simp only [outAfterStep]
  split_ifs <;> simp_all [updN, h]

theorem outAfterStep_leaf (o : Nat → Nat) (a : AdjE) :
    outAfterStep true o a a.key = dirOf a := by
  simp only [outAfterStep]
  split_ifs <;> simp_all [updN]

theorem outAfterStep_nonleaf (o : Nat → Nat) (a : AdjE) :
    outAfterStep false o a a.key = if o a.key = 2 then dirOf a else o a.key := by
  simp only [outAfterStep]
  split_ifs <;> simp_all [updN]

theorem insBLoop_outE_frame (Cidx : Nat) (isLeaf piR : Bool) :
    ∀ (as : List AdjE) (s : LoopState) (k : Nat),
    (∀ a ∈ as, a.key ≠ k) →
    (insBLoop Cidx isLeaf piR s as).outE k = s.outE k := by
  intro as
  induction as with
  | nil => intro s k _; rfl
  | cons a rest ih =>
    intro s k h
    rw [insBLoop, ih _ k (fun b hb => h b (List.mem_cons_of_mem _ hb)), insBStep_outE]
    exact outAfterStep_ne _ _ _ _ (fun hc => h a (List.mem_cons_self _ _) hc.symm)

theorem insBLoop_outE_change (Cidx : Nat) (isLeaf piR : Bool) (as : List AdjE)
    (s : LoopState) (k : Nat)
    (h : (insBLoop Cidx isLeaf piR s as).outE k ≠ s.outE k) :
    ∃ a ∈ as, a.key = k := by
  by_contra hc
  push_neg at hc
  exact h (insBLoop_outE_frame Cidx isLeaf piR as s k hc)

theorem insBLoop_outE_nonleaf_stable (Cidx : Nat) (piR : Bool) :
    ∀ (as : List AdjE) (s : LoopState) (k : Nat), s.outE k ≠ 2 →
    (insBLoop Cidx false piR s as).outE k = s.outE k := by
  intro as
  induction as with
  | nil => intro s k _; rfl
  | cons a rest ih =>
    intro s k h
    have hstep : (insBStep Cidx false piR rest.isEmpty s a).outE k = s.outE k := by
      rw [insBStep_outE]
      by_cases hk : k = a.key
      · rw [hk, outAfterStep_nonleaf, if_neg (hk ▸ h)]
      · exact outAfterStep_ne _ _ _ _ hk
    rw [insBLoop, ih _ k (by rw [hstep]; exact h), hstep]

theorem insBLoop_outE_origin (Cidx : Nat) (isLeaf piR : Bool) :
    ∀ (as : List AdjE) (s : LoopState) (k : Nat),
    (insBLoop Cidx isLeaf piR s as).outE k = s.outE k ∨
    ∃ a ∈ as, a.key = k ∧ (insBLoop Cidx isLeaf piR s as).outE k = dirOf a := by
  intro as
  induction as with
  | nil => intro s k; exact Or.inl rfl
  | cons a rest ih =>
    intro s k
    rw [insBLoop]
    rcases ih (insBStep Cidx isLeaf piR rest.isEmpty s a) k with h | ⟨b, hb, hbk, hval⟩
    · rw [insBStep_outE] at h
      by_cases hk : k = a.key
      · subst hk
        cases hleaf : isLeaf
        · rw [hleaf] at h
          rw [outAfterStep_nonleaf] at h
          by_cases h2 : s.outE a.key = 2
          · rw [if_pos h2] at h
            exact Or.inr ⟨a, List.mem_cons_self _ _, rfl, h⟩
          · rw [if_neg h2] at h
            exact Or.inl h
        · rw [hleaf, outAfterStep_leaf] at h
          exact Or.inr ⟨a, List.mem_cons_self _ _, rfl, h⟩
      · rw [outAfterStep_ne _ _ _ _ hk] at h
        exact Or.inl h
    · exact Or.inr ⟨b, List.mem_cons_of_mem _ hb, hbk, hval⟩

theorem insBLoop_outE_congr (Cidx : Nat) (isLeaf piR : Bool) :
    ∀ (as : List AdjE) (s s2 : LoopState), s.outE = s2.outE →
    (insBLoop Cidx isLeaf piR s as).outE = (insBLoop Cidx isLeaf piR s2 as).outE := by
  intro as
  induction as with
  | nil => intro s s2 h; exact h
  | cons a rest ih =>
    intro s s2 h
    rw [insBLoop, insBLoop]
    apply ih
    rw [insBStep_outE, insBStep_outE, h]

theorem insBLoop_outE_append (Cidx : Nat) (isLeaf piR : Bool) (l1 l2 : List AdjE) :
    ∀ s : LoopState,
    (insBLoop Cidx isLeaf piR s (l1 ++ l2)).outE =
    (insBLoop Cidx isLeaf piR (insBLoop Cidx isLeaf piR s l1) l2).outE := by
  induction l1 with
  | nil => intro s; rfl
  | cons a l1t ih =>
    intro s
    rw [List.cons_append, insBLoop, insBLoop, ih]
    apply insBLoop_outE_congr
    apply insBLoop_outE_congr
    rw [insBStep_outE, insBStep_outE]

theorem insertBoundary_outE_eq (Cidx : Nat) (isLeaf piR : Bool) (outAdj : List AdjE)
    (bs : BState) (o : Nat → Nat) (c : Nat → Option Nat) :
    (insertBoundary Cidx isLeaf piR outAdj bs o c).2.1 =
      (insBLoop Cidx isLeaf piR ⟨bs, o, c, [], []⟩ outAdj).outE := by
  cases outAdj with
  | nil => rfl
  | cons a as =>
    simp only [insertBoundary]
    split <;> rfl

theorem insertBoundary_outE_frame (Cidx : Nat) (isLeaf piR : Bool)
    (outAdj : List AdjE) (bs : BState) (o : Nat → Nat) (c : Nat → Option Nat)
    (k : Nat) (h : ∀ a ∈ outAdj, a.key ≠ k) :
    (insertBoundary Cidx isLeaf piR outAdj bs o c).2.1 k = o k := by
  rw [insertBoundary_outE_eq]
  exact insBLoop_outE_frame _ _ _ _ _ _ h

theorem insertBoundary_outE_nonleaf (Cidx : Nat) (piR : Bool) (outAdj : List AdjE)
    (bs : BState) (o : Nat → Nat) (c : Nat → Option Nat) (k : Nat) (h : o k ≠ 2) :
    (insertBoundary Cidx false piR outAdj bs o c).2.1 k = o k := by
  rw [insertBoundary_outE_eq]
  exact insBLoop_outE_nonleaf_stable _ _ _ _ _ h

theorem insertBoundary_outE_origin (Cidx : Nat) (isLeaf piR : Bool)
    (outAdj : List AdjE) (bs : BState) (o : Nat → Nat) (c : Nat → Option Nat)
    (k : Nat) :
    (insertBoundary Cidx isLeaf piR outAdj bs o c).2.1 k = o k ∨
    ∃ a ∈ outAdj, a.key = k ∧
      (insertBoundary Cidx isLeaf piR outAdj bs o c).2.1 k = dirOf a := by
  rw [insertBoundary_outE_eq]
  exact insBLoop_outE_origin _ _ _ _ _ _

theorem passOrigin : ∀ (cs : List ClusterRec) (bs : BState) (o : Nat → Nat)
    (c : Nat → Option Nat) (k : Nat),
    (convertClusterGraph bs cs o c).2.1 k = o k ∨
    ∃ cl ∈ cs, ∃ a ∈ cl.outAdj, a.key = k ∧
      (convertClusterGraph bs cs o c).2.1 k = dirOf a := by
  intro cs
  induction cs with
  | nil => intro bs o c k; exact Or.inl rfl
  | cons cl rest ih =>
    intro bs o c k
    simp only [convertClusterGraph]
    rcases ih (insertBoundary cl.idx cl.isLeaf cl.parentIsRoot cl.outAdj bs o c).1
        (insertBoundary cl.idx cl.isLeaf cl.parentIsRoot cl.outAdj bs o c).2.1
        (insertBoundary cl.idx cl.isLeaf cl.parentIsRoot cl.outAdj bs o c).2.2 k with
      h | ⟨cl2, h2, a, ha, hak, hval⟩
    · rcases insertBoundary_outE_origin cl.idx cl.isLeaf cl.parentIsRoot cl.outAdj
        bs o c k with h2 | ⟨a, ha, hak, hval⟩
      · exact Or.inl (h.trans h2)
      · exact Or.inr ⟨cl, List.mem_cons_self _ _, a, ha, hak, h.trans hval⟩
    · exact Or.inr ⟨cl2, List.mem_cons_of_mem _ h2, a, ha, hak, hval⟩

theorem passStable : ∀ (cs2 prev : List ClusterRec) (bs : BState) (o : Nat → Nat)
    (c : Nat → Option Nat) (k : Nat),
    List.Pairwise DisjRel (prev ++ cs2) → o k ≠ 2 →
    (∃ cl ∈ prev, k ∈ keysOf cl) →
    (convertClusterGraph bs cs2 o c).2.1 k = o k := by
  intro cs2
  induction cs2 with
  | nil => intro prev bs o c k _ _ _; rfl
  | cons cl rest ih =>
    intro prev bs o c k hpair ho hw
    simp only [convertClusterGraph]
    have hstep : (insertBoundary cl.idx cl.isLeaf cl.parentIsRoot cl.outAdj
        bs o c).2.1 k = o k := by
      cases hleaf : cl.isLeaf
      · exact insertBoundary_outE_nonleaf _ _ _ _ _ _ _ ho
      · rcases hw with ⟨cl1, h1, hk1⟩
        have hrel : DisjRel cl1 cl :=
          (List.pairwise_append.mp hpair).2.2 cl1 h1 cl (List.mem_cons_self _ _)
        have hnk : k ∉ keysOf cl := hrel hleaf k hk1
        apply insertBoundary_outE_frame
        intro a ha hak
        exact hnk (hak ▸ List.mem_map_of_mem AdjE.key ha)
    have hpair2 : List.Pairwise DisjRel ((prev ++ [cl]) ++ rest) := by
      rw [List.append_assoc]
      exact hpair
    have hw2 : ∃ cl1 ∈ prev ++ [cl], k ∈ keysOf cl1 := by
      rcases hw with ⟨cl1, h1, hk1⟩
      exact ⟨cl1, List.mem_append_left _ h1, hk1⟩
    rw [ih (prev ++ [cl]) _ _ _ k hpair2 (by rw [hstep]; exact ho) hw2, hstep]

theorem convert_append : ∀ (cs1 cs2 : List ClusterRec) (bs : BState) (o : Nat → Nat)
    (c : Nat → Option Nat),
    convertClusterGraph bs (cs1 ++ cs2) o c =
      convertClusterGraph (convertClusterGraph bs cs1 o c).1 cs2
        (convertClusterGraph bs cs1 o c).2.1 (convertClusterGraph bs cs1 o c).2.2 := by
  intro cs1
  induction cs1 with
  | nil => intro cs2 bs o c; rfl
  | cons cl rest ih =>
    intro cs2 bs o c
    simp only [List.cons_append, convertClusterGraph]
    exact ih cs2 _ _ _

theorem c8aux (cs2 cs1 : List ClusterRec) (cl : ClusterRec) (l1 l2 : List AdjE)
    (Mbs : BState) (Mo : Nat → Nat) (Mc : Nat → Option Nat) (bs : BState) (k : Nat)
    (hM : convertClusterGraph bs cs1 (fun _ => 2) (fun _ => none) = (Mbs, Mo, Mc))
    (hpair : List.Pairwise DisjRel (cs1 ++ cl :: cs2))
    (hnd : cl.isLeaf = true → (keysOf cl).Nodup)
    (hsplit : cl.outAdj = l1 ++ l2)
    (hmidne :
      (insBLoop cl.idx cl.isLeaf cl.parentIsRoot ⟨Mbs, Mo, Mc, [], []⟩ l1).outE k ≠ 2) :
    (ModelBoundaries bs (cs1 ++ cl :: cs2)).2.1 k =
      (insBLoop cl.idx cl.isLeaf cl.parentIsRoot ⟨Mbs, Mo, Mc, [], []⟩ l1).outE k := by
  have hMbs : (convertClusterGraph bs cs1 (fun _ => 2) (fun _ => none)).1 = Mbs := by
    rw [hM]
  have hMo : (convertClusterGraph bs cs1 (fun _ => 2) (fun _ => none)).2.1 = Mo := by
    rw [hM]
  have hMc : (convertClusterGraph bs cs1 (fun _ => 2) (fun _ => none)).2.2 = Mc := by
    rw [hM]
  set mid := insBLoop cl.idx cl.isLeaf cl.parentIsRoot ⟨Mbs, Mo, Mc, [], []⟩ l1 with hmiddef
  have hfull : (ModelBoundaries bs (cs1 ++ cl :: cs2)).2.1 =
      (convertClusterGraph
        (insertBoundary cl.idx cl.isLeaf cl.parentIsRoot cl.outAdj Mbs Mo Mc).1 cs2
        (insertBoundary cl.idx cl.isLeaf cl.parentIsRoot cl.outAdj Mbs Mo Mc).2.1
        (insertBoundary cl.idx cl.isLeaf cl.parentIsRoot cl.outAdj Mbs Mo Mc).2.2).2.1 := by
    rw [ModelBoundaries, convert_append, hMbs, hMo, hMc]
    simp only [convertClusterGraph]
  have hrmid : (insertBoundary cl.idx cl.isLeaf cl.parentIsRoot cl.outAdj Mbs Mo Mc).2.1 =
      (insBLoop cl.idx cl.isLeaf cl.parentIsRoot mid l2).outE := by
    rw [hsplit, insertBoundary_outE_eq, hmiddef, insBLoop_outE_append]
  have hstep : (insertBoundary cl.idx cl.isLeaf cl.parentIsRoot cl.outAdj
      Mbs Mo Mc).2.1 k = mid.outE k := by
    rw [hrmid]
    cases hleaf : cl.isLeaf
    · exact insBLoop_outE_nonleaf_stable _ _ l2 mid k hmidne
    · by_cases hk1 : ∃ a ∈ l1, a.key = k
      · have hnd2 : (keysOf cl).Nodup := hnd hleaf
        rw [keysOf, hsplit, List.map_append] at hnd2
        rcases hk1 with ⟨a, ha, hak⟩
        have hkin : k ∈ l1.map AdjE.key := hak ▸ List.mem_map_of_mem _ ha
        have hnotin2 : k ∉ l2.map AdjE.key :=
          fun hc => (List.nodup_append.mp hnd2).2.2 hkin hc
        apply insBLoop_outE_frame
        intro a2 ha2 hak2
        exact hnotin2 (hak2 ▸ List.mem_map_of_mem _ ha2)
      · push_neg at hk1
        have hmm : mid.outE k = Mo k := by
          rw [hmiddef]
          exact insBLoop_outE_frame _ _ _ l1 _ k hk1
        have hMo2 : Mo k ≠ 2 := by rw [← hmm]; exact hmidne
        have hwriter : ∃ cl1 ∈ cs1, k ∈ keysOf cl1 := by
          rcases passOrigin cs1 bs (fun _ => 2) (fun _ => none) k with
            h | ⟨cl1, h1, a, ha, hak, _⟩
          · rw [hMo] at h; exact absurd h hMo2
          · exact ⟨cl1, h1, hak ▸ List.mem_map_of_mem _ ha⟩
        rcases hwriter with ⟨cl1, h1, hk1w⟩
        have hrel : DisjRel cl1 cl :=
          (List.pairwise_append.mp hpair).2.2 cl1 h1 cl (List.mem_cons_self _ _)
        have hnk : k ∉ keysOf cl := hrel hleaf k hk1w
        apply insBLoop_outE_frame
        intro a2 ha2 hak2
        apply hnk
        rw [keysOf, hsplit, List.map_append]
        exact List.mem_append_right _ (hak2 ▸ List.mem_map_of_mem _ ha2)
  have hwriter2 : ∃ cl1 ∈ cs1 ++ [cl], k ∈ keysOf cl1 := by
    by_cases hMo2 : Mo k = 2
    · have hchg : (insBLoop cl.idx cl.isLeaf cl.parentIsRoot
          ⟨Mbs, Mo, Mc, [], []⟩ l1).outE k ≠
          (⟨Mbs, Mo, Mc, ([] : List (Nat × Bool)), ([] : List (Nat × Bool))⟩ :
            LoopState).outE k := by
        rw [← hmiddef]
        show mid.outE k ≠ Mo k
        rw [hMo2]
        exact hmidne
      rcases insBLoop_outE_change cl.idx cl.isLeaf cl.parentIsRoot l1
          ⟨Mbs, Mo, Mc, [], []⟩ k hchg with ⟨a, ha, hak⟩
      refine ⟨cl, List.mem_append_right _ (List.mem_singleton.mpr rfl), ?_⟩
      rw [keysOf, hsplit, List.map_append]
      exact List.mem_append_left _ (hak ▸ List.mem_map_of_mem _ ha)
    · rcases passOrigin cs1 bs (fun _ => 2) (fun _ => none) k with
        h | ⟨cl1, h1, a, ha, hak, _⟩
      · rw [hMo] at h; exact absurd h hMo2
      · exact ⟨cl1, List.mem_append_left _ h1, hak ▸ List.mem_map_of_mem _ ha⟩
  have hpair2 : List.Pairwise DisjRel ((cs1 ++ [cl]) ++ cs2) := by
    rw [List.append_assoc]
    exact hpair
  rw [hfull, passStable cs2 (cs1 ++ [cl]) _ _ _ k hpair2
      (by rw [hstep]; exact hmidne) hwriter2, hstep]

/-- C8: over one whole boundary-modeling pass, every half-edge's direction
flag is written at most once with a defined value: once it is defined (not
2) at any point of the pass — after earlier clusters cs1 and a prefix l1 of
the current cluster cl's list — the rest of the pass never changes it, and
any flag defined at the end was set from a cluster-adjacent entry by
checking whether the entry starts inside its cluster (isSource, outgoing 1)
or ends inside it (ingoing 0).  Hypotheses: a later-processed leaf cluster
shares no adjacency entry with any earlier cluster (laminarity plus the
post-order contract), and a leaf cluster's list has no duplicate entries. -/
theorem c8_direction_written_once (cs1 cs2 : List ClusterRec) (cl : ClusterRec)
    (l1 l2 : List AdjE) (bs : BState) (k : Nat)
    (hpair : List.Pairwise DisjRel (cs1 ++ cl :: cs2))
    (hnd : cl.isLeaf = true → (keysOf cl).Nodup)
    (hsplit : cl.outAdj = l1 ++ l2) :
    ((insBLoop cl.idx cl.isLeaf cl.parentIsRoot
        ⟨(convertClusterGraph bs cs1 (fun _ => 2) (fun _ => none)).1,
         (convertClusterGraph bs cs1 (fun _ => 2) (fun _ => none)).2.1,
         (convertClusterGraph bs cs1 (fun _ => 2) (fun _ => none)).2.2,
         [], []⟩ l1).outE k ≠ 2 →
      (ModelBoundaries bs (cs1 ++ cl :: cs2)).2.1 k =
        (insBLoop cl.idx cl.isLeaf cl.parentIsRoot
          ⟨(convertClusterGraph bs cs1 (fun _ => 2) (fun _ => none)).1,
           (convertClusterGraph bs cs1 (fun _ => 2) (fun _ => none)).2.1,
           (convertClusterGraph bs cs1 (fun _ => 2) (fun _ => none)).2.2,
           [], []⟩ l1).outE k) ∧
    ((ModelBoundaries bs (cs1 ++ cl :: cs2)).2.1 k ≠ 2 →
      ∃ cl2 ∈ cs1 ++ cl :: cs2, ∃ a ∈ cl2.outAdj, a.key = k ∧
        (ModelBoundaries bs (cs1 ++ cl :: cs2)).2.1 k = dirOf a) := by
  constructor
  · intro hmidne
    exact c8aux cs2 cs1 cl l1 l2 _ _ _ bs k rfl hpair hnd hsplit hmidne
  · intro hne
    rcases passOrigin (cs1 ++ cl :: cs2) bs (fun _ => 2) (fun _ => none) k with h | hw
    · exact absurd h hne
    · exact hw

/-- Witness for C8: the ingoing entry of cluster 2 is set to 0 during its
own processing and the end of the pass still carries that value. -/
theorem c8_direction_witness :
    List.Pairwise DisjRel (c8Cs1 ++ c8Cl :: []) ∧
    (insBLoop c8Cl.idx c8Cl.isLeaf c8Cl.parentIsRoot
      ⟨(convertClusterGraph c8Bs c8Cs1 (fun _ => 2) (fun _ => none)).1,
       (convertClusterGraph c8Bs c8Cs1 (fun _ => 2) (fun _ => none)).2.1,
       (convertClusterGraph c8Bs c8Cs1 (fun _ => 2) (fun _ => none)).2.2,
       [], []⟩ c8Cl.outAdj).outE 2 ≠ 2 ∧
    (ModelBoundaries c8Bs (c8Cs1 ++ c8Cl :: [])).2.1 2 =
      (insBLoop c8Cl.idx c8Cl.isLeaf c8Cl.parentIsRoot
        ⟨(convertClusterGraph c8Bs c8Cs1 (fun _ => 2) (fun _ => none)).1,
         (convertClusterGraph c8Bs c8Cs1 (fun _ => 2) (fun _ => none)).2.1,
         (convertClusterGraph c8Bs c8Cs1 (fun _ => 2) (fun _ => none)).2.2,
         [], []⟩ c8Cl.outAdj).outE 2 := by
  have hp : List.Pairwise DisjRel (c8Cs1 ++ c8Cl :: []) := by
    show List.Pairwise DisjRel
      ((⟨1, true, true, [⟨0, 1, true, 0⟩]⟩ : ClusterRec) :: c8Cl :: [])
    refine List.Pairwise.cons ?_ (List.pairwise_singleton _ _)
    intro b hb
    have hb2 : b = c8Cl := by simpa using hb
    subst hb2
    intro _ x hx
    have hx0 : x = 0 := by simpa [keysOf] using hx
    subst hx0
    decide
  have hmidne : (insBLoop c8Cl.idx c8Cl.isLeaf c8Cl.parentIsRoot
      ⟨(convertClusterGraph c8Bs c8Cs1 (fun _ => 2) (fun _ => none)).1,
       (convertClusterGraph c8Bs c8Cs1 (fun _ => 2) (fun _ => none)).2.1,
       (convertClusterGraph c8Bs c8Cs1 (fun _ => 2) (fun _ => none)).2.2,
       [], []⟩ c8Cl.outAdj).outE 2 ≠ 2 := by decide
  have h := c8_direction_written_once c8Cs1 [] c8Cl c8Cl.outAdj [] c8Bs 2 hp
    (fun _ => by decide) (List.append_nil _).symm
  exact ⟨hp, hmidne, h.1 hmidne⟩

theorem lookupEdge_mem (es : List (Nat × EdgeRec)) (x : Nat)
    (h : x ∈ es.map Prod.fst) : ∃ r, lookupEdge es x = some r := by
  induction es with
  | nil => exact absurd h (by simp)
  | cons p ps ih =>
    rw [lookupEdge]
    by_cases hp : p.1 = x
    · exact ⟨p.2, by rw [if_pos hp]⟩
    · rw [if_neg hp]
      apply ih
      rw [List.map_cons] at h
      rcases List.mem_cons.mp h with h2 | h2
      · exact absurd h2.symm hp
      · exact h2

theorem insBStep_spec (Cidx : Nat) (isLeaf piR isLast : Bool) (s : LoopState)
    (a : AdjE) (r : EdgeRec)
    (hse : lookupEdge s.bs.edges (initSplit s.curE a) = some r)
    (hb : ∀ id ∈ s.bs.edges.map Prod.fst, id < s.bs.nextEdge) :
    ∀ s1, s1 = insBStep Cidx isLeaf piR isLast s a →
    s1.bs.nextNode = s.bs.nextNode + 1 ∧
    s1.bs.nextEdge = s.bs.nextEdge + 1 ∧
    s1.bs.nodes = s.bs.nodes ++ [s.bs.nextNode] ∧
    (∀ v, v ≠ s.bs.nextNode → s1.bs.nodeClusterID v = s.bs.nodeClusterID v) ∧
    s1.bs.nodeClusterID s.bs.nextNode = Int.ofNat Cidx ∧
    (∀ x, s1.bs.edgeClusterID x = s.bs.edgeClusterID x) ∧
    (∀ x, s1.bs.isClusterBoundary x = s.bs.isClusterBoundary x) ∧
    s1.bs.edges.map Prod.fst = s.bs.edges.map Prod.fst ++ [s.bs.nextEdge] ∧
    ((s1.sourceEntries = s.sourceEntries ++ [(s.bs.nextEdge, true)] ∧
      s1.targetEntries = s.targetEntries ++ [(initSplit s.curE a, false)]) ∨
     (s1.sourceEntries = s.sourceEntries ++ [(initSplit s.curE a, false)] ∧
      s1.targetEntries = s.targetEntries ++ [(s.bs.nextEdge, true)])) ∧
    lookupEdge s1.bs.edges (initSplit s.curE a) = some ⟨r.src, s.bs.nextNode⟩ ∧
    lookupEdge s1.bs.edges s.bs.nextEdge = some ⟨s.bs.nextNode, r.tgt⟩ ∧
    (∀ x r2, lookupEdge s.bs.edges x = some r2 → x ≠ initSplit s.curE a →
      lookupEdge s1.bs.edges x = some r2) ∧
    (∀ x r2, lookupEdge s.bs.edges x = some r2 →
      ∃ r3, lookupEdge s1.bs.edges x = some r3 ∧ r3.src = r2.src) ∧
    (∀ k, k ≠ a.key → k ≠ a.twinKey → s1.curE k = s.curE k) := by
  intro s1 hs1
  have hc1 : curResolved isLeaf s.curE a a.key = some (initSplit s.curE a) :=
    curResolved_at isLeaf s.curE a
  have hget : getEdge s.bs (initSplit s.curE a) = r := by
    rw [getEdge, hse]; rfl
  have hnotmem : (initSplit s.curE a ≠ s.bs.nextEdge) := by
    intro hc
    have := hb _ (mem_of_lookupEdge _ _ _ hse)
    omega
  have hnot : lookupEdge (setTgt s.bs.edges (initSplit s.curE a) s.bs.nextNode)
      s.bs.nextEdge = none := by
    apply lookupEdge_not_mem
    rw [setTgt_map_fst]
    intro hmem
    exact absurd (hb _ hmem) (by omega)
  have hfacts : ∀ x r2, lookupEdge s.bs.edges x = some r2 → x ≠ initSplit s.curE a →
      lookupEdge (setTgt s.bs.edges (initSplit s.curE a) s.bs.nextNode ++
        [(s.bs.nextEdge, ⟨s.bs.nextNode, r.tgt⟩)]) x = some r2 := by
    intro x r2 h hx
    apply lookupEdge_append_left
    rw [lookupEdge_setTgt_ne _ _ _ _ hx]
    exact h
  have hlookse : lookupEdge (setTgt s.bs.edges (initSplit s.curE a) s.bs.nextNode ++
      [(s.bs.nextEdge, ⟨s.bs.nextNode, r.tgt⟩)]) (initSplit s.curE a) =
      some ⟨r.src, s.bs.nextNode⟩ :=
    lookupEdge_append_left _ _ _ _ (lookupEdge_setTgt_eq _ _ _ _ hse)
  have hlookne : lookupEdge (setTgt s.bs.edges (initSplit s.curE a) s.bs.nextNode ++
      [(s.bs.nextEdge, ⟨s.bs.nextNode, r.tgt⟩)]) s.bs.nextEdge =
      some ⟨s.bs.nextNode, r.tgt⟩ := by
    rw [lookupEdge_none_append _ _ _ hnot, lookupEdge]
    simp
  have hsrc : ∀ x r2, lookupEdge s.bs.edges x = some r2 →
      ∃ r3, lookupEdge (setTgt s.bs.edges (initSplit s.curE a) s.bs.nextNode ++
        [(s.bs.nextEdge, ⟨s.bs.nextNode, r.tgt⟩)]) x = some r3 ∧ r3.src = r2.src := by
    intro x r2 h
    by_cases hx : x = initSplit s.curE a
    · subst hx
      have : r2 = r := by
        have h3 := hse.symm.trans h
        injection h3 with h4
        exact h4.symm
      refine ⟨⟨r2.src, s.bs.nextNode⟩, ?_, rfl⟩
      rw [this, hlookse]
    · exact ⟨r2, hfacts x r2 h hx, rfl⟩
  by_cases hout : outAfterStep isLeaf s.outE a a.key = 1
  · rw [hs1]
    simp only [insBStep, split, hc1, Option.getD_some, hget]
    rw [if_pos hout]
    refine ⟨rfl, rfl, rfl, ?_, ?_, fun x => rfl, fun x => rfl, ?_, Or.inl ⟨rfl, rfl⟩,
      hlookse, hlookne, hfacts, hsrc, ?_⟩
    · intro v hv
      exact updI_ne _ _ _ _ hv
    · exact updI_at _ _ _
    · rw [List.map_append, setTgt_map_fst]; rfl
    · intro k hk ht
      simp only [updO, if_neg ht, if_neg hk]
      exact curResolved_ne isLeaf s.curE a k hk
  · rw [hs1]
    simp only [insBStep, split, hc1, Option.getD_some, hget]
    rw [if_neg hout]
    refine ⟨rfl, rfl, rfl, ?_, ?_, fun x => rfl, fun x => rfl, ?_, Or.inr ⟨rfl, rfl⟩,
      hlookse, hlookne, hfacts, hsrc, ?_⟩
    · intro v hv
      exact updI_ne _ _ _ _ hv
    · exact updI_at _ _ _
    · rw [List.map_append, setTgt_map_fst]; rfl
    · intro k hk _
      exact curResolved_ne isLeaf s.curE a k hk

theorem range_map_shift (f : Nat → Nat) (n : Nat) :
    (List.range (n + 1)).map f = f 0 :: (List.range n).map (fun i => f (i + 1)) := by
  rw [List.range_succ_eq_map, List.map_cons, List.map_map]
  rfl

theorem range_shift_cons (base n : Nat) :
    (List.range (n + 1)).map (fun i => base + i) =
      base :: (List.range n).map (fun i => base + 1 + i) := by
  rw [range_map_shift]
  simp only [Nat.add_zero]
  congr 1
  exact List.map_congr_left (fun i _ => by omega)

theorem insBLoop_spec (Cidx : Nat) (isLeaf piR : Bool) :
    ∀ (as : List AdjE) (s : LoopState),
    (∀ id ∈ s.bs.edges.map Prod.fst, id < s.bs.nextEdge) →
    (∀ a ∈ as, initSplit s.curE a ∈ s.bs.edges.map Prod.fst) →
    (∀ a ∈ as, ∀ b ∈ as, a.twinKey ≠ b.key) →
    (as.map AdjE.key).Nodup →
    List.Pairwise (fun a b => initSplit s.curE a ≠ initSplit s.curE b) as →
    (insBLoop Cidx isLeaf piR s as).bs.nextNode = s.bs.nextNode + as.length ∧
    (insBLoop Cidx isLeaf piR s as).bs.nextEdge = s.bs.nextEdge + as.length ∧
    (insBLoop Cidx isLeaf piR s as).bs.nodes =
      s.bs.nodes ++ (List.range as.length).map (fun i => s.bs.nextNode + i) ∧
    (∀ v, v < s.bs.nextNode ∨ s.bs.nextNode + as.length ≤ v →
      (insBLoop Cidx isLeaf piR s as).bs.nodeClusterID v = s.bs.nodeClusterID v) ∧
    (∀ i, i < as.length →
      (insBLoop Cidx isLeaf piR s as).bs.nodeClusterID (s.bs.nextNode + i) =
        Int.ofNat Cidx) ∧
    (∀ x, (insBLoop Cidx isLeaf piR s as).bs.edgeClusterID x =
      s.bs.edgeClusterID x) ∧
    (∀ x, (insBLoop Cidx isLeaf piR s as).bs.isClusterBoundary x =
      s.bs.isClusterBoundary x) ∧
    (insBLoop Cidx isLeaf piR s as).bs.edges.map Prod.fst =
      s.bs.edges.map Prod.fst ++
        (List.range as.length).map (fun i => s.bs.nextEdge + i) ∧
    (∃ exS exT : List (Nat × Bool),
      (insBLoop Cidx isLeaf piR s as).sourceEntries = s.sourceEntries ++ exS ∧
      (insBLoop Cidx isLeaf piR s as).targetEntries = s.targetEntries ++ exT ∧
      exS.map (nodeOfAdj (insBLoop Cidx isLeaf piR s as).bs) =
        (List.range as.length).map (fun i => s.bs.nextNode + i) ∧
      exT.map (nodeOfAdj (insBLoop Cidx isLeaf piR s as).bs) =
        (List.range as.length).map (fun i => s.bs.nextNode + i) ∧
      (∀ q ∈ exS, q.1 ∈ (insBLoop Cidx isLeaf piR s as).bs.edges.map Prod.fst) ∧
      (∀ q ∈ exT, q.1 ∈ (insBLoop Cidx isLeaf piR s as).bs.edges.map Prod.fst)) ∧
    (∀ x r2, lookupEdge s.bs.edges x = some r2 →
      ∃ r3, lookupEdge (insBLoop Cidx isLeaf piR s as).bs.edges x = some r3 ∧
        r3.src = r2.src) ∧
    (∀ x r2, lookupEdge s.bs.edges x = some r2 →
      (∀ a ∈ as, initSplit s.curE a ≠ x) →
      lookupEdge (insBLoop Cidx isLeaf piR s as).bs.edges x = some r2) := by
  intro as
  induction as with
  | nil =>
    intro s _ _ _ _ _
    exact ⟨by simp [insBLoop], by simp [insBLoop], by simp [insBLoop], fun v _ => rfl,
      fun i hi => absurd hi (by simp), fun x => rfl, fun x => rfl, by simp [insBLoop],
      ⟨[], [], by simp [insBLoop], by simp [insBLoop], by simp, by simp, by simp, by simp⟩,
      fun x r2 h => ⟨r2, h, rfl⟩, fun x r2 h _ => h⟩
  | cons a rest ih =>
    intro s hb hmem htwin hkeys hinj
    obtain ⟨r, hse⟩ := lookupEdge_mem _ _ (hmem a (List.mem_cons_self _ _))
    set s1 := insBStep Cidx isLeaf piR rest.isEmpty s a with hs1def
    obtain ⟨e1, e2, e3, e4, e5, e6, e7, e8, e9, e10, e11, e12, e13, e14⟩ :=
      insBStep_spec Cidx isLeaf piR rest.isEmpty s a r hse hb s1 hs1def
    have hkeyne : ∀ b ∈ rest, b.key ≠ a.key := by
      intro b hbmem hc
      have h0 : a.key ∉ rest.map AdjE.key := by
        have := hkeys
        rw [List.map_cons, List.nodup_cons] at this
        exact this.1
      exact h0 (hc ▸ List.mem_map_of_mem AdjE.key hbmem)
    have hcurstable : ∀ b ∈ rest, initSplit s1.curE b = initSplit s.curE b := by
      intro b hbmem
      have ht : b.key ≠ a.twinKey := fun hc =>
        htwin a (List.mem_cons_self _ _) b (List.mem_cons_of_mem _ hbmem) hc.symm
      rw [initSplit, initSplit, e14 b.key (hkeyne b hbmem) ht]
    have hb1 : ∀ id ∈ s1.bs.edges.map Prod.fst, id < s1.bs.nextEdge := by
      rw [e8, e2]
      intro id hid
      rcases List.mem_append.mp hid with h | h
      · have := hb id h; omega
      · have : id = s.bs.nextEdge := by simpa using h
        omega
    have hmem1 : ∀ b ∈ rest, initSplit s1.curE b ∈ s1.bs.edges.map Prod.fst := by
      intro b hbmem
      rw [hcurstable b hbmem, e8]
      exact List.mem_append_left _ (hmem b (List.mem_cons_of_mem _ hbmem))
    have htwin1 : ∀ b ∈ rest, ∀ b2 ∈ rest, b.twinKey ≠ b2.key := fun b hb2 b2 hb3 =>
      htwin b (List.mem_cons_of_mem _ hb2) b2 (List.mem_cons_of_mem _ hb3)
    have hkeys1 : (rest.map AdjE.key).Nodup := by
      have := hkeys
      rw [List.map_cons, List.nodup_cons] at this
      exact this.2
    have hinj1 : List.Pairwise
        (fun b b2 => initSplit s1.curE b ≠ initSplit s1.curE b2) rest := by
      refine (List.pairwise_cons.mp hinj).2.imp_of_mem ?_
      intro x y hx hy hxy
      rw [hcurstable x hx, hcurstable y hy]
      exact hxy
    have hheadne : ∀ b ∈ rest, initSplit s.curE b ≠ initSplit s.curE a := fun b hbm hc =>
      (List.pairwise_cons.mp hinj).1 b hbm hc.symm
    obtain ⟨P1, P2, P3, P4, P5, P6, P7, P8,
        ⟨exS, exT, Q1, Q2, Q3, Q4, Q5, Q6⟩, P10, P11⟩ :=
      ih s1 hb1 hmem1 htwin1 hkeys1 hinj1
    have hF : insBLoop Cidx isLeaf piR s (a :: rest) = insBLoop Cidx isLeaf piR s1 rest := by
      rw [hs1def]
      rfl
    rw [hF, List.length_cons]
    have hnodes : (List.range (rest.length + 1)).map (fun i => s.bs.nextNode + i) =
        s.bs.nextNode :: (List.range rest.length).map (fun i => s.bs.nextNode + 1 + i) :=
      range_shift_cons _ _
    have hedges : (List.range (rest.length + 1)).map (fun i => s.bs.nextEdge + i) =
        s.bs.nextEdge :: (List.range rest.length).map (fun i => s.bs.nextEdge + 1 + i) :=
      range_shift_cons _ _
    refine ⟨?_, ?_, ?_, ?_, ?_, ?_, ?_, ?_, ?_, ?_, ?_⟩
    · rw [P1, e1]; omega
    · rw [P2, e2]; omega
    · rw [P3, e3, e1, hnodes]
      simp [List.append_assoc]
    · intro v hv
      rw [P4 v (by rw [e1]; omega)]
      exact e4 v (by omega)
    · intro i hi
      cases i with
      | zero =>
        simp only [Nat.add_zero]
        rw [P4 s.bs.nextNode (by rw [e1]; omega)]
        exact e5
      | succ j =>
        have h5 := P5 j (by omega)
        rw [e1] at h5
        have harith : s.bs.nextNode + (j + 1) = s.bs.nextNode + 1 + j := by omega
        rw [harith]
        exact h5
    · intro x; rw [P6 x, e6 x]
    · intro x; rw [P7 x, e7 x]
    · rw [P8, e8, e2, hedges]
      simp [List.append_assoc]
    · -- entry lists
      have hcond : ∀ b ∈ rest, initSplit s1.curE b ≠ initSplit s.curE a := by
        intro b hbm
        rw [hcurstable b hbm]
        exact hheadne b hbm
      have hlookF_se : lookupEdge (insBLoop Cidx isLeaf piR s1 rest).bs.edges
          (initSplit s.curE a) = some ⟨r.src, s.bs.nextNode⟩ :=
        P11 _ _ e10 hcond
      obtain ⟨r3, hr3, hr3src⟩ := P10 _ _ e11
      have hnode_se : nodeOfAdj (insBLoop Cidx isLeaf piR s1 rest).bs
          (initSplit s.curE a, false) = s.bs.nextNode := by
        simp [nodeOfAdj, getEdge, hlookF_se]
      have hnode_ne : nodeOfAdj (insBLoop Cidx isLeaf piR s1 rest).bs
          (s.bs.nextEdge, true) = s.bs.nextNode := by
        simp [nodeOfAdj, getEdge, hr3, hr3src]
      have hmem_se : (initSplit s.curE a) ∈
          (insBLoop Cidx isLeaf piR s1 rest).bs.edges.map Prod.fst :=
        mem_of_lookupEdge _ _ _ hlookF_se
      have hmem_ne : s.bs.nextEdge ∈
          (insBLoop Cidx isLeaf piR s1 rest).bs.edges.map Prod.fst :=
        mem_of_lookupEdge _ _ _ hr3
      rcases e9 with ⟨ha1, ha2⟩ | ⟨ha1, ha2⟩
      · refine ⟨(s.bs.nextEdge, true) :: exS, (initSplit s.curE a, false) :: exT,
          ?_, ?_, ?_, ?_, ?_, ?_⟩
        · rw [Q1, ha1]; simp
        · rw [Q2, ha2]; simp
        · rw [List.map_cons, hnodes, Q3, e1, hnode_ne]
        · rw [List.map_cons, hnodes, Q4, e1, hnode_se]
        · intro q hq
          rcases List.mem_cons.mp hq with rfl | hq2
          · exact hmem_ne
          · exact Q5 q hq2
        · intro q hq
          rcases List.mem_cons.mp hq with rfl | hq2
          · exact hmem_se
          · exact Q6 q hq2
      · refine ⟨(initSplit s.curE a, false) :: exS, (s.bs.nextEdge, true) :: exT,
          ?_, ?_, ?_, ?_, ?_, ?_⟩
        · rw [Q1, ha1]; simp
        · rw [Q2, ha2]; simp
        · rw [List.map_cons, hnodes, Q3, e1, hnode_se]
        · rw [List.map_cons, hnodes, Q4, e1, hnode_ne]
        · intro q hq
          rcases List.mem_cons.mp hq with rfl | hq2
          · exact hmem_se
          · exact Q5 q hq2
        · intro q hq
          rcases List.mem_cons.mp hq with rfl | hq2
          · exact hmem_ne
          · exact Q6 q hq2
    · intro x r2 h
      obtain ⟨r3, h3, hsrc3⟩ := e13 x r2 h
      obtain ⟨r4, h4, hsrc4⟩ := P10 x r3 h3
      exact ⟨r4, h4, hsrc4.trans hsrc3⟩
    · intro x r2 h hall
      have h1 := e12 x r2 h
        (fun hc => hall a (List.mem_cons_self _ _) (hc ▸ rfl))
      refine P11 x r2 h1 ?_
      intro b hbm
      rw [hcurstable b hbm]
      exact hall b (List.mem_cons_of_mem _ hbm)

theorem getD_mem_of_lt {α : Type} (l : List α) (i : Nat) (d : α)
    (h : i < l.length) : l.getD i d ∈ l := by
  induction l generalizing i with
  | nil => simp at h
  | cons x xs ih =>
    cases i with
    | zero => simp [List.getD]
    | succ j =>
      rw [List.getD_cons_succ]
      exact List.mem_cons_of_mem _ (ih j (by simpa using h))

theorem connectB_spec (Cidx : Nat) :
    ∀ (ts ss : List (Nat × Bool)) (bs : BState),
    (∀ id ∈ bs.edges.map Prod.fst, id < bs.nextEdge) →
    (∀ q ∈ ss, q.1 ∈ bs.edges.map Prod.fst) →
    (∀ q ∈ ts, q.1 ∈ bs.edges.map Prod.fst) →
    ss.length = ts.length →
    (connectB Cidx bs ss ts).nextNode = bs.nextNode ∧
    (connectB Cidx bs ss ts).nodes = bs.nodes ∧
    (∀ v, (connectB Cidx bs ss ts).nodeClusterID v = bs.nodeClusterID v) ∧
    (connectB Cidx bs ss ts).nextEdge = bs.nextEdge + ts.length ∧
    (connectB Cidx bs ss ts).edges.map Prod.fst =
      bs.edges.map Prod.fst ++ (List.range ts.length).map (fun i => bs.nextEdge + i) ∧
    (∀ x r2, lookupEdge bs.edges x = some r2 →
        lookupEdge (connectB Cidx bs ss ts).edges x = some r2) ∧
    (∀ x, x < bs.nextEdge ∨ bs.nextEdge + ts.length ≤ x →
      (connectB Cidx bs ss ts).isClusterBoundary x = bs.isClusterBoundary x ∧
      (connectB Cidx bs ss ts).edgeClusterID x = bs.edgeClusterID x) ∧
    (∀ i, i < ts.length →
      (connectB Cidx bs ss ts).isClusterBoundary (bs.nextEdge + i) = true ∧
      (connectB Cidx bs ss ts).edgeClusterID (bs.nextEdge + i) = Int.ofNat Cidx ∧
      lookupEdge (connectB Cidx bs ss ts).edges (bs.nextEdge + i) =
        some ⟨nodeOfAdj bs (ss.getD i (0, true)), nodeOfAdj bs (ts.getD i (0, true))⟩) := by
  intro ts
  induction ts with
  | nil =>
    intro ss bs _ _ _ hlen
    have hss0 : ss = [] := List.length_eq_zero.mp (by simpa using hlen)
    subst hss0
    exact ⟨rfl, rfl, fun v => rfl, by simp [connectB], by simp [connectB],
      fun x r2 h => h, fun x _ => ⟨rfl, rfl⟩, fun i hi => absurd hi (by simp)⟩
  | cons ta ts2 ih =>
    intro ss bs hb hss hts hlen
    cases ss with
    | nil => exact absurd hlen (by simp)
    | cons sa ss2 =>
      set bs1 : BState :=
        { bs with
          nextEdge := bs.nextEdge + 1,
          edges := bs.edges ++ [(bs.nextEdge, ⟨nodeOfAdj bs sa, nodeOfAdj bs ta⟩)],
          isClusterBoundary := updB bs.isClusterBoundary bs.nextEdge true,
          edgeClusterID := updI bs.edgeClusterID bs.nextEdge (Int.ofNat Cidx) }
        with hbs1
      have hstep : connectB Cidx bs (sa :: ss2) (ta :: ts2) =
          connectB Cidx bs1 ss2 ts2 := by
        rw [hbs1]
        rfl
      have hids1 : bs1.edges.map Prod.fst = bs.edges.map Prod.fst ++ [bs.nextEdge] := by
        rw [hbs1]; simp
      have hb1 : ∀ id ∈ bs1.edges.map Prod.fst, id < bs1.nextEdge := by
        rw [hids1]
        intro id hid
        rcases List.mem_append.mp hid with h | h
        · have := hb id h
          show id < bs.nextEdge + 1
          omega
        · have : id = bs.nextEdge := by simpa using h
          show id < bs.nextEdge + 1
          omega
      have hpres : ∀ x r2, lookupEdge bs.edges x = some r2 →
          lookupEdge bs1.edges x = some r2 := by
        intro x r2 h
        rw [hbs1]
        exact lookupEdge_append_left _ _ _ _ h
      have hss1 : ∀ q ∈ ss2, q.1 ∈ bs1.edges.map Prod.fst := by
        intro q hq
        rw [hids1]
        exact List.mem_append_left _ (hss q (List.mem_cons_of_mem _ hq))
      have hts1 : ∀ q ∈ ts2, q.1 ∈ bs1.edges.map Prod.fst := by
        intro q hq
        rw [hids1]
        exact List.mem_append_left _ (hts q (List.mem_cons_of_mem _ hq))
      have hnode1 : ∀ q : Nat × Bool, q.1 ∈ bs.edges.map Prod.fst →
          nodeOfAdj bs1 q = nodeOfAdj bs q := by
        intro q hq
        obtain ⟨r0, hr0⟩ := lookupEdge_mem _ _ hq
        have h2 : lookupEdge bs1.edges q.1 = some r0 := hpres _ _ hr0
        unfold nodeOfAdj getEdge
        rw [h2, hr0]
      have hlooknew : lookupEdge bs1.edges bs.nextEdge =
          some ⟨nodeOfAdj bs sa, nodeOfAdj bs ta⟩ := by
        rw [hbs1]
        show lookupEdge (bs.edges ++ [(bs.nextEdge, _)]) bs.nextEdge = _
        rw [lookupEdge_none_append _ _ _ (lookupEdge_not_mem _ _
          (fun hc => absurd (hb _ hc) (by omega))), lookupEdge]
        simp
      obtain ⟨R1, R2, R3, R4, R5, R6, R7, R8⟩ :=
        ih ss2 bs1 hb1 hss1 hts1 (by simpa using hlen)
      rw [hstep]
      refine ⟨R1, R2, R3, ?_, ?_, ?_, ?_, ?_⟩
      · rw [R4]
        show bs.nextEdge + 1 + ts2.length = bs.nextEdge + (ts2.length + 1)
        omega
      · rw [R5, hids1]
        show bs.edges.map Prod.fst ++ [bs.nextEdge] ++
            (List.range ts2.length).map (fun i => bs.nextEdge + 1 + i) =
          bs.edges.map Prod.fst ++
            (List.range (ts2.length + 1)).map (fun i => bs.nextEdge + i)
        rw [range_shift_cons]
        simp [List.append_assoc]
      · intro x r2 h
        exact R6 x r2 (hpres x r2 h)
      · intro x hx
        simp only [List.length_cons] at hx
        have hx1 : x < bs1.nextEdge ∨ bs1.nextEdge + ts2.length ≤ x := by
          show x < bs.nextEdge + 1 ∨ bs.nextEdge + 1 + ts2.length ≤ x
          rcases hx with h | h
          · left; omega
          · right; omega
        have hxe : x ≠ bs.nextEdge := by
          rcases hx with h | h <;> omega
        obtain ⟨hf1, hf2⟩ := R7 x hx1
        constructor
        · rw [hf1, hbs1]
          show updB bs.isClusterBoundary bs.nextEdge true x = bs.isClusterBoundary x
          simp [updB, hxe]
        · rw [hf2, hbs1]
          show updI bs.edgeClusterID bs.nextEdge (Int.ofNat Cidx) x = bs.edgeClusterID x
          simp [updI, hxe]
      · intro i hi
        cases i with
        | zero =>
          simp only [Nat.add_zero]
          obtain ⟨hf1, hf2⟩ := R7 bs.nextEdge (Or.inl (by show bs.nextEdge < bs.nextEdge + 1; omega))
          refine ⟨?_, ?_, ?_⟩
          · rw [hf1, hbs1]
            show updB bs.isClusterBoundary bs.nextEdge true bs.nextEdge = true
            simp [updB]
          · rw [hf2, hbs1]
            show updI bs.edgeClusterID bs.nextEdge (Int.ofNat Cidx) bs.nextEdge =
              Int.ofNat Cidx
            simp [updI]
          · have := R6 bs.nextEdge _ hlooknew
            rw [this]
            rfl
        | succ j =>
          have hj : j < ts2.length := by simpa using hi
          have hlen2 : ss2.length = ts2.length := by simpa using hlen
          obtain ⟨hg1, hg2, hg3⟩ := R8 j hj
          have harith : bs.nextEdge + (j + 1) = bs1.nextEdge + j := by
            show bs.nextEdge + (j + 1) = bs.nextEdge + 1 + j
            omega
          rw [harith]
          refine ⟨hg1, hg2, ?_⟩
          rw [hg3, List.getD_cons_succ, List.getD_cons_succ,
            hnode1 _ (hss _ (List.mem_cons_of_mem _
              (getD_mem_of_lt ss2 j (0, true) (by omega)))),
            hnode1 _ (hts _ (List.mem_cons_of_mem _
              (getD_mem_of_lt ts2 j (0, true) hj)))]

/-- getD of a mapped list at an in-range index is the function at the
original getD. -/
theorem getD_map_eq {α β : Type} (f : α → β) (l : List α) (i : Nat)
    (hi : i < l.length) (d : α) (d2 : β) :
    (l.map f).getD i d2 = f (l.getD i d) := by
  rw [List.getD_eq_getElem _ _ (by simpa using hi), List.getD_eq_getElem _ _ hi,
    List.getElem_map]

/-- getD of a mapped range at an in-range index. -/
theorem range_map_getD (g : Nat → Nat) (n i : Nat) (hi : i < n) (d2 : Nat) :
    ((List.range n).map g).getD i d2 = g i := by
  rw [getD_map_eq g _ i (by simpa using hi) 0 d2]
  rw [List.getD_eq_getElem _ _ (by simpa using hi), List.getElem_range]

/-- getD of an append at an index inside the first part. -/
theorem getD_append_left {α : Type} (l l2 : List α) (i : Nat)
    (hi : i < l.length) (d : α) :
    (l ++ l2).getD i d = l.getD i d := by
  induction l generalizing i with
  | nil => exact absurd hi (by simp)
  | cons a as ih =>
    cases i with
    | zero => rfl
    | succ j => simpa using ih j (by simpa using hi)

/-- getD of a one-element extension at the old length is the new element. -/
theorem getD_append_length {α : Type} (l : List α) (x d : α) :
    (l ++ [x]).getD l.length d = x := by
  induction l with
  | nil => rfl
  | cons a as ih => simpa using ih

/-- A doubled shifted range splits into two consecutive blocks. -/
theorem range_two_blocks (b n : Nat) :
    (List.range (2 * n)).map (fun i => b + i) =
      (List.range n).map (fun i => b + i) ++
        (List.range n).map (fun i => b + n + i) := by
  have h2 : 2 * n = n + n := by omega
  rw [h2, List.range_add, List.map_append, List.map_map]
  congr 1
  apply List.map_congr_left
  intro i _
  show b + (n + i) = b + n + i
  omega

/-- C1 (amended): for a cluster C with a non-empty clockwise cluster-adjacent
entry list of length n, insertBoundary inserts exactly n new nodes and 2n new
edges, not n: the n split halves of the adjacent edges are neither flagged as
cluster boundaries nor given an edge cluster-id, while the n newly connected
boundary edges are each flagged and carry edge cluster-id C.index(); every new
node carries node cluster-id C.index(); the n boundary edges join the n new
nodes into one simple cycle (each split node to the next, the last back to the
first); a cluster with an empty entry list is skipped with the structure
unchanged.  Hypotheses: existing edge ids lie below the fresh-edge counter,
every entry's initial split edge exists, no listed entry's twin is itself
listed, the entry keys are distinct, the initial split edges are pairwise
distinct, and the attribute arrays are at their defaults beyond the
fresh-edge counter. -/
theorem c1_insertBoundary_amended (Cidx : Nat) (isLeaf piR : Bool)
    (a : AdjE) (adjs : List AdjE) (bs : BState) (outE : Nat → Nat)
    (curE : Nat → Option Nat)
    (hb : ∀ id ∈ bs.edges.map Prod.fst, id < bs.nextEdge)
    (hmem : ∀ x ∈ a :: adjs, initSplit curE x ∈ bs.edges.map Prod.fst)
    (htwin : ∀ x ∈ a :: adjs, ∀ y ∈ a :: adjs, x.twinKey ≠ y.key)
    (hkeys : ((a :: adjs).map AdjE.key).Nodup)
    (hinj : List.Pairwise (fun x y => initSplit curE x ≠ initSplit curE y)
      (a :: adjs))
    (hfresh : ∀ x, bs.nextEdge ≤ x →
      bs.isClusterBoundary x = false ∧ bs.edgeClusterID x = -1) :
    insertBoundary Cidx isLeaf piR [] bs outE curE = (bs, outE, curE) ∧
    (insertBoundary Cidx isLeaf piR (a :: adjs) bs outE curE).1.nextNode =
      bs.nextNode + (adjs.length + 1) ∧
    (insertBoundary Cidx isLeaf piR (a :: adjs) bs outE curE).1.nodes =
      bs.nodes ++ (List.range (adjs.length + 1)).map (fun i => bs.nextNode + i) ∧
    (∀ i, i < adjs.length + 1 →
      (insertBoundary Cidx isLeaf piR (a :: adjs) bs outE curE).1.nodeClusterID
        (bs.nextNode + i) = Int.ofNat Cidx) ∧
    (∀ v, v < bs.nextNode →
      (insertBoundary Cidx isLeaf piR (a :: adjs) bs outE curE).1.nodeClusterID v =
        bs.nodeClusterID v) ∧
    (insertBoundary Cidx isLeaf piR (a :: adjs) bs outE curE).1.nextEdge =
      bs.nextEdge + 2 * (adjs.length + 1) ∧
    (insertBoundary Cidx isLeaf piR (a :: adjs) bs outE curE).1.edges.map Prod.fst =
      bs.edges.map Prod.fst ++
        (List.range (2 * (adjs.length + 1))).map (fun i => bs.nextEdge + i) ∧
    (∀ i, i < adjs.length + 1 →
      (insertBoundary Cidx isLeaf piR (a :: adjs) bs outE curE).1.isClusterBoundary
          (bs.nextEdge + i) = false ∧
      (insertBoundary Cidx isLeaf piR (a :: adjs) bs outE curE).1.edgeClusterID
          (bs.nextEdge + i) = -1) ∧
    (∀ i, i < adjs.length + 1 →
      (insertBoundary Cidx isLeaf piR (a :: adjs) bs outE curE).1.isClusterBoundary
          (bs.nextEdge + (adjs.length + 1) + i) = true ∧
      (insertBoundary Cidx isLeaf piR (a :: adjs) bs outE curE).1.edgeClusterID
          (bs.nextEdge + (adjs.length + 1) + i) = Int.ofNat Cidx) ∧
    (∀ i, i + 1 < adjs.length + 1 →
      lookupEdge (insertBoundary Cidx isLeaf piR (a :: adjs) bs outE curE).1.edges
          (bs.nextEdge + (adjs.length + 1) + i) =
        some ⟨bs.nextNode + i, bs.nextNode + (i + 1)⟩) ∧
    lookupEdge (insertBoundary Cidx isLeaf piR (a :: adjs) bs outE curE).1.edges
        (bs.nextEdge + (adjs.length + 1) + adjs.length) =
      some ⟨bs.nextNode + adjs.length, bs.nextNode⟩ := by
  obtain ⟨L1, L2, L3, L4, L5, L6, L7, L8,
      ⟨exS, exT, hS, hT, hSmap, hTmap, hSmem, hTmem⟩, L10, L11⟩ :=
    insBLoop_spec Cidx isLeaf piR (a :: adjs) ⟨bs, outE, curE, [], []⟩
      hb hmem htwin hkeys hinj
  set LP := insBLoop Cidx isLeaf piR ⟨bs, outE, curE, [], []⟩ (a :: adjs) with hLP
  have L1' : LP.bs.nextNode = bs.nextNode + (adjs.length + 1) := by
    rw [L1]; exact rfl
  have L2' : LP.bs.nextEdge = bs.nextEdge + (adjs.length + 1) := by
    rw [L2]; exact rfl
  have L3' : LP.bs.nodes =
      bs.nodes ++ (List.range (adjs.length + 1)).map (fun i => bs.nextNode + i) := by
    rw [L3]; exact rfl
  have L8' : LP.bs.edges.map Prod.fst =
      bs.edges.map Prod.fst ++
        (List.range (adjs.length + 1)).map (fun i => bs.nextEdge + i) := by
    rw [L8]; exact rfl
  have hSmap' : exS.map (nodeOfAdj LP.bs) =
      (List.range (adjs.length + 1)).map (fun j => bs.nextNode + j) := by
    rw [hSmap]; exact rfl
  have hTmap' : exT.map (nodeOfAdj LP.bs) =
      (List.range (adjs.length + 1)).map (fun j => bs.nextNode + j) := by
    rw [hTmap]; exact rfl
  have hlenS : exS.length = adjs.length + 1 := by
    simpa using congrArg List.length hSmap'
  have hlenT : exT.length = adjs.length + 1 := by
    simpa using congrArg List.length hTmap'
  cases exT with
  | nil => exact absurd hlenT (by simp)
  | cons t0 trest =>
    have htl : trest.length = adjs.length := by simpa using hlenT
    have hS' : LP.sourceEntries = exS := by simpa using hS
    have hT' : LP.targetEntries = t0 :: trest := by simpa using hT
    have hres : (insertBoundary Cidx isLeaf piR (a :: adjs) bs outE curE).1 =
        connectB Cidx LP.bs exS (trest ++ [t0]) := by
      simp only [insertBoundary]
      rw [← hLP, hT', hS']
    have hbF : ∀ id ∈ LP.bs.edges.map Prod.fst, id < LP.bs.nextEdge := by
      rw [L8', L2']
      intro id hid
      rcases List.mem_append.mp hid with h | h
      · have := hb id h
        omega
      · simp only [List.mem_map, List.mem_range] at h
        obtain ⟨i, hi, rfl⟩ := h
        omega
    have htsF : ∀ q ∈ trest ++ [t0], q.1 ∈ LP.bs.edges.map Prod.fst := by
      intro q hq
      apply hTmem
      rcases List.mem_append.mp hq with h | h
      · exact List.mem_cons_of_mem _ h
      · have hq0 : q = t0 := by simpa using h
        rw [hq0]
        exact List.mem_cons_self _ _
    have hlenF : exS.length = (trest ++ [t0]).length := by
      rw [hlenS]
      simp [htl]
    obtain ⟨C1h, C2h, C3h, C4h, C5h, C6h, C7h, C8h⟩ :=
      connectB_spec Cidx (trest ++ [t0]) exS LP.bs hbF hSmem htsF hlenF
    have tsl : (trest ++ [t0]).length = adjs.length + 1 := by simp [htl]
    have hsrc : ∀ i, i < adjs.length + 1 →
        nodeOfAdj LP.bs (exS.getD i (0, true)) = bs.nextNode + i := by
      intro i hi
      have h1 := getD_map_eq (nodeOfAdj LP.bs) exS i (by rw [hlenS]; exact hi)
        (0, true) (bs.nextNode + i)
      rw [hSmap', range_map_getD (fun j => bs.nextNode + j) (adjs.length + 1) i hi
        (bs.nextNode + i)] at h1
      exact h1.symm
    have htgtm : ∀ j, j < adjs.length + 1 →
        nodeOfAdj LP.bs ((t0 :: trest).getD j (0, true)) = bs.nextNode + j := by
      intro j hj
      have h1 := getD_map_eq (nodeOfAdj LP.bs) (t0 :: trest) j (by rw [hlenT]; exact hj)
        (0, true) (bs.nextNode + j)
      rw [hTmap', range_map_getD (fun j2 => bs.nextNode + j2) (adjs.length + 1) j hj
        (bs.nextNode + j)] at h1
      exact h1.symm
    refine ⟨rfl, ?_, ?_, ?_, ?_, ?_, ?_, ?_, ?_, ?_, ?_⟩
    · rw [hres, C1h, L1']
    · rw [hres, C2h, L3']
    · intro i hi
      rw [hres, C3h]
      exact L5 i hi
    · intro v hv
      rw [hres, C3h]
      exact L4 v (Or.inl hv)
    · rw [hres, C4h, L2', tsl]
      omega
    · rw [hres, C5h, L8']
      have hmap2 : (List.range ((trest ++ [t0]).length)).map
          (fun i => LP.bs.nextEdge + i) =
          (List.range (adjs.length + 1)).map
            (fun i => bs.nextEdge + (adjs.length + 1) + i) := by
        rw [tsl]
        apply List.map_congr_left
        intro i _
        show LP.bs.nextEdge + i = bs.nextEdge + (adjs.length + 1) + i
        rw [L2']
      rw [hmap2, List.append_assoc, range_two_blocks]
    · intro i hi
      obtain ⟨h7a, h7b⟩ := C7h (bs.nextEdge + i) (Or.inl (by rw [L2']; omega))
      constructor
      · rw [hres, h7a, L7]
        exact (hfresh (bs.nextEdge + i) (by omega)).1
      · rw [hres, h7b, L6]
        exact (hfresh (bs.nextEdge + i) (by omega)).2
    · intro i hi
      have hidx : bs.nextEdge + (adjs.length + 1) + i = LP.bs.nextEdge + i := by
        rw [L2']
      obtain ⟨h1, h2, _⟩ := C8h i (by rw [tsl]; exact hi)
      rw [hres, hidx]
      exact ⟨h1, h2⟩
    · intro i hi
      have hi' : i < adjs.length + 1 := by omega
      have hidx : bs.nextEdge + (adjs.length + 1) + i = LP.bs.nextEdge + i := by
        rw [L2']
      obtain ⟨h1, h2, h3⟩ := C8h i (by rw [tsl]; exact hi')
      rw [hres, hidx, h3, hsrc i hi']
      have e2 : (trest ++ [t0]).getD i (0, true) =
          (t0 :: trest).getD (i + 1) (0, true) := by
        rw [List.getD_cons_succ, getD_append_left _ _ _ (by rw [htl]; omega)]
      rw [e2, htgtm (i + 1) (by omega)]
    · have hidx : bs.nextEdge + (adjs.length + 1) + adjs.length =
          LP.bs.nextEdge + adjs.length := by rw [L2']
      obtain ⟨h1, h2, h3⟩ := C8h adjs.length (by rw [tsl]; omega)
      rw [hres, hidx, h3, hsrc adjs.length (by omega)]
      have e2 : (trest ++ [t0]).getD adjs.length (0, true) = t0 := by
        rw [← htl]
        exact getD_append_length trest t0 (0, true)
      rw [e2]
      have e3 : nodeOfAdj LP.bs t0 = bs.nextNode := by
        simpa using htgtm 0 (by omega)
      rw [e3]

/-- C1 counterexample: for the single-entry adjacency list [c1A] (n = 1),
boundary insertion creates two new edges (ids 1 and 2), not one, and the
split half (edge 1) is neither flagged as a cluster boundary nor given the
cluster's edge cluster-id; only the connecting boundary edge (edge 2) is
flagged.  This refutes the claim that exactly n new edges are inserted and
that every inserted edge is flagged with the cluster's id. -/
theorem c1_counterexample :
    (insertBoundary 1 true true [c1A] c1Bs (fun _ => 2) (fun _ => none)).1.edges.map
        Prod.fst = [0, 1, 2] ∧
    c1Bs.edges.map Prod.fst = [0] ∧
    (insertBoundary 1 true true [c1A] c1Bs (fun _ => 2)
        (fun _ => none)).1.isClusterBoundary 1 = false ∧
    (insertBoundary 1 true true [c1A] c1Bs (fun _ => 2)
        (fun _ => none)).1.edgeClusterID 1 = -1 ∧
    (insertBoundary 1 true true [c1A] c1Bs (fun _ => 2)
        (fun _ => none)).1.isClusterBoundary 2 = true := by
  decide

/-- C1 witness: the amended insertBoundary theorem applied to the concrete
single-entry scenario; the closing boundary edge is the self-loop at the
single split node. -/
theorem c1_insertBoundary_witness :
    (∀ x ∈ [c1A], initSplit (fun _ => none) x ∈ c1Bs.edges.map Prod.fst) ∧
    lookupEdge (insertBoundary 1 true true [c1A] c1Bs (fun _ => 2)
        (fun _ => none)).1.edges 2 = some ⟨2, 2⟩ :=
  ⟨by decide,
   (c1_insertBoundary_amended 1 true true c1A [] c1Bs (fun _ => 2) (fun _ => none)
      (by decide) (by decide) (by decide) (by decide) (by decide)
      (fun x _ => ⟨rfl, rfl⟩)).2.2.2.2.2.2.2.2.2.2⟩
